import Mathlib

/-!
Verification development for the active task slot manager of
`model/active_task_slot.go`: a bounded in-memory store of task slots with
SimHash-based matching, a per-user capacity cap, a global capacity cap,
LRU eviction, and windowed activity reporting.

Modelling conventions:
* Go `uint64` fingerprints are modelled as `Nat`; the SimHash construction
  only ever sets bits 0..63, so no wrap-around arises and `bits.OnesCount64`
  coincides with counting set bits among positions 0..63.
* Go `int` user identifiers and Unix-second timestamps are modelled as `Int`.
* The salted token hash `tokenHash64` (SHA-1 over a random process-lifetime
  salt and the token bytes) is abstracted as a parameter
  `th : List Char → Nat`: within one process lifetime it is one fixed,
  deterministic function, and no claim depends on its concrete values.
* Go strings are modelled as `List Char`; `strings.Fields` becomes `fields`
  (whitespace splitting, empty tokens dropped).
* The Go map `map[int][]int` is modelled as an association list
  `List (Int × List Nat)`; reading an absent key yields `[]` (Go's nil
  slice) and `delete` removes the entry.  The mutating code never iterates
  the map, so the association-list order is irrelevant to it.
* Mutation becomes explicit state passing on `ActiveTaskSlotManager`.
-/

/-- One task slot, mirroring Go `TaskSlot`. -/
structure TaskSlot where
  UserID : Int
  Username : String
  UpdatedAt : Int
  SimHash : Nat
deriving DecidableEq

/-- Default slot used for out-of-range reads (reachable states never read
out of range; the invariant `WFs` keeps every stored index in bounds). -/
def defaultSlot : TaskSlot := ⟨0, "", 0, 0⟩

/-- The manager state, mirroring Go `ActiveTaskSlotManager` (without the
lock, which serialises operations and is modelled by atomic state steps). -/
structure ActiveTaskSlotManager where
  slots : List TaskSlot
  userSlotIdx : List (Int × List Nat)
  lruOrder : List Nat
deriving DecidableEq

/-- Go constant `MaxGlobalSlots`. -/
def MaxGlobalSlots : Nat := 1000

/-- Go constant `MaxUserSlots`. -/
def MaxUserSlots : Nat := 50

/-- Go constant `ActiveWindowSeconds`. -/
def ActiveWindowSeconds : Int := 30

/-- Go constant `SimHashThreshold`. -/
def SimHashThreshold : Nat := 5

/-- The empty store produced by `GetActiveTaskSlotManager` on first use. -/
def emptyManager : ActiveTaskSlotManager := ⟨[], [], []⟩

/-- Whitespace tokenisation: Go `strings.Fields` (split on whitespace,
dropping empty fields).  `acc` holds the current token reversed. -/
def fieldsAux : List Char → List Char → List (List Char)
  | acc, [] => if acc = [] then [] else [acc.reverse]
  | acc, c :: rest =>
    if c.isWhitespace then
      if acc = [] then fieldsAux [] rest else acc.reverse :: fieldsAux [] rest
    else fieldsAux (c :: acc) rest

/-- Tokens of a text, as in Go `strings.Fields(data)`. -/
def fields (s : List Char) : List (List Char) := fieldsAux [] s

/-- The signed vote for bit position `i`: each token adds `+1` when bit `i`
of its salted hash is set, `-1` otherwise (repeated tokens vote again).
This is the per-position content of the Go array `v` in `simhash64`. -/
def vote (th : List Char → Nat) (tokens : List (List Char)) (i : Nat) : Int :=
  tokens.foldl (fun acc tok => if (th tok).testBit i then acc + 1 else acc - 1) 0

/-- Go `simhash64`: zero when there are no tokens, otherwise bit `i` of the
output is set exactly when the vote for position `i` is `≥ 0`. -/
def simhash64 (th : List Char → Nat) (data : List Char) : Nat :=
  let tokens := fields data
  if tokens = [] then 0
  else (List.range 64).foldl
    (fun out i => if 0 ≤ vote th tokens i then out ||| (1 <<< i) else out) 0

/-- Go `hamming64`: `bits.OnesCount64(a ^ b)`, the number of positions
`0..63` where `a` and `b` differ. -/
def hamming64 (a b : Nat) : Nat :=
  ((List.range 64).filter (fun i => (a ^^^ b).testBit i)).length

/-- Read a key of the user index: Go `m.userSlotIdx[userID]` (absent keys
read as the nil slice, i.e. `[]`). -/
def lookupIdx (l : List (Int × List Nat)) (u : Int) : List Nat :=
  match l.find? (fun p => p.1 == u) with
  | some p => p.2
  | none => []

/-- Write a key of the user index: Go `m.userSlotIdx[userID] = v`. -/
def setIdx (l : List (Int × List Nat)) (u : Int) (v : List Nat) :
    List (Int × List Nat) :=
  if l.any (fun p => p.1 == u) then
    l.map (fun p => if p.1 == u then (u, v) else p)
  else l ++ [(u, v)]

/-- Delete a key of the user index: Go `delete(m.userSlotIdx, userID)`. -/
def eraseKey (l : List (Int × List Nat)) (u : Int) : List (Int × List Nat) :=
  l.filter (fun p => p.1 != u)

/-- Go `removeFromUserSlotIdx`: drop the first occurrence of `idx` from the
user's list, then delete the user's entry when the list became empty. -/
def removeFromUserSlotIdx (l : List (Int × List Nat)) (u : Int) (idx : Nat) :
    List (Int × List Nat) :=
  if (lookupIdx l u).erase idx = [] then eraseKey l u
  else setIdx l u ((lookupIdx l u).erase idx)

/-- Go `moveToLRUEnd` on the `lruOrder` list: remove the first occurrence
of `idx` (no change when absent, as in the Go loop) and append `idx`. -/
def moveToLRUEnd (l : List Nat) (idx : Nat) : List Nat :=
  l.erase idx ++ [idx]

/-- The scanning fold of Go `findOldestUserSlot`: starting from the first
listed slot, replace the candidate whenever a strictly older slot appears
(so ties keep the earliest-listed slot, exactly like the Go loop). -/
def oldestFold (slots : List TaskSlot) (i : Nat) (rest : List Nat) : Nat :=
  rest.foldl
    (fun best idx =>
      if (slots.getD idx defaultSlot).UpdatedAt
          < (slots.getD best defaultSlot).UpdatedAt then idx else best) i

/-- Go `findOldestUserSlot`: `none` models the `-1` sentinel returned for a
user with no slots. -/
def findOldestUserSlot (m : ActiveTaskSlotManager) (userID : Int) : Option Nat :=
  match lookupIdx m.userSlotIdx userID with
  | [] => none
  | i :: rest => some (oldestFold m.slots i rest)

/-- Go `reuseSlot`: when the owner changes, move the index between the two
users' membership lists; then overwrite all slot fields and move the slot
to the most-recently-used end of the LRU order. -/
def reuseSlot (m : ActiveTaskSlotManager) (idx : Nat) (newUserID : Int)
    (username : String) (now : Int) (newHash : Nat) : ActiveTaskSlotManager :=
  let oldUserID := (m.slots.getD idx defaultSlot).UserID
  let idxMap :=
    if oldUserID ≠ newUserID then
      let l1 := removeFromUserSlotIdx m.userSlotIdx oldUserID idx
      setIdx l1 newUserID (lookupIdx l1 newUserID ++ [idx])
    else m.userSlotIdx
  { slots := m.slots.set idx ⟨newUserID, username, now, newHash⟩,
    userSlotIdx := idxMap,
    lruOrder := moveToLRUEnd m.lruOrder idx }

/-- The scan-and-match predicate of `RecordTask` step 1. -/
def matchPred (m : ActiveTaskSlotManager) (newHash : Nat) (idx : Nat) : Bool :=
  hamming64 (m.slots.getD idx defaultSlot).SimHash newHash ≤ SimHashThreshold

/-- Go `RecordTask` after `newHash` has been computed: scan the caller's
slots in membership order for the first fingerprint within the threshold;
on a match update that slot in place; otherwise evict the user's oldest
slot at the per-user cap, else the global LRU slot at the global cap, else
allocate a new slot.  `now` is `time.Now().Unix()`. -/
def recordTaskCore (m : ActiveTaskSlotManager) (userID : Int)
    (username : String) (now : Int) (newHash : Nat) : ActiveTaskSlotManager :=
  let userSlots := lookupIdx m.userSlotIdx userID
  match userSlots.find? (matchPred m newHash) with
  | some idx =>
    let slot := m.slots.getD idx defaultSlot
    { m with
      slots := m.slots.set idx
        { slot with UpdatedAt := now, SimHash := newHash, Username := username },
      lruOrder := moveToLRUEnd m.lruOrder idx }
  | none =>
    match (if MaxUserSlots ≤ userSlots.length then findOldestUserSlot m userID
           else none) with
    | some oldestIdx => reuseSlot m oldestIdx userID username now newHash
    | none =>
      if MaxGlobalSlots ≤ m.slots.length ∧ m.lruOrder ≠ [] then
        reuseSlot m (m.lruOrder.headD 0) userID username now newHash
      else
        { slots := m.slots ++ [⟨userID, username, now, newHash⟩],
          userSlotIdx := setIdx m.userSlotIdx userID
            (userSlots ++ [m.slots.length]),
          lruOrder := m.lruOrder ++ [m.slots.length] }

/-- Go `RecordTask(userID, username, data)`: compute the fingerprint of the
raw text and run the match-or-evict-or-allocate step. -/
def RecordTask (th : List Char → Nat) (m : ActiveTaskSlotManager)
    (userID : Int) (username : String) (now : Int) (data : List Char) :
    ActiveTaskSlotManager :=
  recordTaskCore m userID username now (simhash64 th data)

/-- One recorded call, for traces of `RecordTask` invocations. -/
structure RecordCall where
  userID : Int
  username : String
  now : Int
  data : List Char

/-- Run a trace of `RecordTask` calls from a given state. -/
def runTraceFrom (th : List Char → Nat) (m : ActiveTaskSlotManager) :
    List RecordCall → ActiveTaskSlotManager
  | [] => m
  | c :: cs => runTraceFrom th (RecordTask th m c.userID c.username c.now c.data) cs

/-- Run a trace of `RecordTask` calls from the empty store. -/
def runTrace (th : List Char → Nat) (trace : List RecordCall) :
    ActiveTaskSlotManager :=
  runTraceFrom th emptyManager trace

/-- The timestamp of the last call of a trace (`b` for the empty trace). -/
def lastNow (b : Int) : List RecordCall → Int
  | [] => b
  | c :: cs => lastNow c.now cs

/-- The `k`-th call of the filling trace: a fresh user `k + 1`, at time `0`,
with the one-token text `"a"`. -/
def fillCall (k : Nat) : RecordCall := ⟨(k : Int) + 1, "u", 0, ['a']⟩

/-- A trace of `n` calls by `n` distinct fresh users. -/
def fillTrace (n : Nat) : List RecordCall := (List.range n).map fillCall

/-- The store reached by `fillTrace n` (proved below): `n` slots, slot `i`
owned by user `i + 1`, all timestamps `0`, LRU order `0, 1, …, n-1`. -/
def fillMgr (th : List Char → Nat) (n : Nat) : ActiveTaskSlotManager :=
  ⟨(List.range n).map
     (fun (i : Nat) => ⟨(i : Int) + 1, "u", 0, simhash64 th ['a']⟩),
   (List.range n).map (fun (i : Nat) => (((i : Int) + 1 : Int), ([i] : List Nat))),
   List.range n⟩

/-- A 64-bit value with each of the low six bits of `n` repeated eight
times: distinct arguments below `64` give values at Hamming distance at
least `8`, which is beyond the similarity threshold. -/
def rep8 (n : Nat) : Nat :=
  (List.range 6).foldl
    (fun a b => if n.testBit b then a ||| (255 <<< (8 * b)) else a) 0

/-- A concrete stand-in for the salted token hash, used by witnesses: the
hash of a token depends only on its length. -/
def thLen (t : List Char) : Nat := rep8 t.length

/-- A one-slot store: user `1` owns slot `0`. -/
def mOne : ActiveTaskSlotManager :=
  ⟨[⟨1, "u", 0, simhash64 thLen ['a']⟩], [(1, [0])], [0]⟩

/-- A store in which user `1` holds exactly the per-user cap of `50` slots,
with pairwise-distant fingerprints and slot `7` strictly oldest. -/
def mFifty : ActiveTaskSlotManager :=
  ⟨(List.range 50).map
     (fun j => ⟨1, "u", if j = 7 then 0 else 1, rep8 (j + 1)⟩),
   [(1, List.range 50)], List.range 50⟩

/-- One row of the activity ranking, mirroring Go `UserActiveTaskCount`. -/
structure UserActiveTaskCount where
  UserID : Int
  Username : String
  ActiveSlots : Nat
deriving DecidableEq

/-- Loop body of the scan in Go `GetActiveTaskRank`: for an active slot,
create the user's row on first touch (recording the display name seen
there) and increment the user's counter.  The accumulator keeps rows in
first-touch order (the Go map iteration order is arbitrary; no claim
depends on the pre-sort order). -/
def bumpCounts (cutoff : Int) (acc : List UserActiveTaskCount)
    (slot : TaskSlot) : List UserActiveTaskCount :=
  if cutoff ≤ slot.UpdatedAt then
    if acc.any (fun e => e.UserID == slot.UserID) then
      acc.map (fun e =>
        if e.UserID == slot.UserID then
          { e with ActiveSlots := e.ActiveSlots + 1 } else e)
    else acc ++ [⟨slot.UserID, slot.Username, 1⟩]
  else acc

/-- The per-user tally loop of Go `GetActiveTaskRank`. -/
def collectCounts (slots : List TaskSlot) (cutoff : Int) :
    List UserActiveTaskCount :=
  slots.foldl (bumpCounts cutoff) []

/-- One pass of the inner loop (`for j := i+1 ...`) of the Go sort in
`GetActiveTaskRank`: scanning right of position `i`, each element strictly
greater than the current occupant of position `i` is swapped with it.  The
first component is the final occupant of position `i` (the maximum), the
second the remaining elements in their final relative placement. -/
def rankSelectMax : UserActiveTaskCount → List UserActiveTaskCount →
    UserActiveTaskCount × List UserActiveTaskCount
  | x, [] => (x, [])
  | x, y :: ys =>
    if x.ActiveSlots < y.ActiveSlots then
      let p := rankSelectMax y ys
      (p.1, x :: p.2)
    else
      let p := rankSelectMax x ys
      (p.1, y :: p.2)

theorem rankSelectMax_length (x : UserActiveTaskCount)
    (l : List UserActiveTaskCount) : (rankSelectMax x l).2.length = l.length := by
  induction l generalizing x with
  | nil => rfl
  | cons y ys ih =>
    simp only [rankSelectMax]
    by_cases h : x.ActiveSlots < y.ActiveSlots <;> simp [h, ih]

/-- The Go double loop (`for i ... for j := i+1 ...`) that sorts the rank
by `ActiveSlots` descending, expressed as a selection sort. -/
def rankSortLoop : List UserActiveTaskCount → List UserActiveTaskCount
  | [] => []
  | x :: xs =>
    let p := rankSelectMax x xs
    p.1 :: rankSortLoop p.2
termination_by l => l.length
decreasing_by simp [rankSelectMax_length]

/-- Go `GetActiveTaskRank(windowSeconds)`; `now` is `time.Now().Unix()`.
Non-positive windows fall back to the default window. -/
def GetActiveTaskRank (m : ActiveTaskSlotManager) (now windowSeconds : Int) :
    List UserActiveTaskCount :=
  let ws := if windowSeconds ≤ 0 then ActiveWindowSeconds else windowSeconds
  rankSortLoop (collectCounts m.slots (now - ws))

/-- Go `GetHighActiveUsers(windowSeconds, threshold)`: the rank filtered to
rows with at least `threshold` active slots, in rank order. -/
def GetHighActiveUsers (m : ActiveTaskSlotManager) (now windowSeconds : Int)
    (threshold : Nat) : List UserActiveTaskCount :=
  (GetActiveTaskRank m now windowSeconds).filter
    (fun u => threshold ≤ u.ActiveSlots)

/-- The result map of Go `GetStats`, with one field per map key. -/
structure StatsResult where
  total_slots : Nat
  active_slots : Nat
  max_global_slots : Nat
  max_user_slots : Nat
  active_users : Nat
  window_seconds : Int
deriving DecidableEq

/-- Go `GetStats`: counts all slots, slots touched within the fixed default
window, and reports `len(m.userSlotIdx)` as `active_users`. -/
def GetStats (m : ActiveTaskSlotManager) (now : Int) : StatsResult :=
  ⟨m.slots.length,
   (m.slots.filter (fun s => now - ActiveWindowSeconds ≤ s.UpdatedAt)).length,
   MaxGlobalSlots, MaxUserSlots, m.userSlotIdx.length, ActiveWindowSeconds⟩

/-- Specification vocabulary: the number of slots owned by `u` whose
timestamp is within the window (at least `cutoff`). -/
def activeSlotCount (slots : List TaskSlot) (cutoff : Int) (u : Int) : Nat :=
  (slots.filter (fun s => s.UserID == u && decide (cutoff ≤ s.UpdatedAt))).length

/-- Specification vocabulary: the first slot of owner `u` counted by the
window scan (whose display name the ranking records). -/
def firstActiveSlot (slots : List TaskSlot) (cutoff : Int) (u : Int) :
    Option TaskSlot :=
  slots.find? (fun s => s.UserID == u && decide (cutoff ≤ s.UpdatedAt))

/-- Specification vocabulary: the tally rows of `acc` agree with the
window-filtered scan of the processed slots `P`: distinct users, correct
counts, exactly the users with an active slot, and display names taken
from the first counted slot. -/
def CountsOK (cutoff : Int) (P : List TaskSlot)
    (acc : List UserActiveTaskCount) : Prop :=
  ((acc.map (fun e => e.UserID)).Nodup) ∧
  (∀ e ∈ acc, e.ActiveSlots = activeSlotCount P cutoff e.UserID) ∧
  (∀ u : Int, (∃ e ∈ acc, e.UserID = u) ↔ 0 < activeSlotCount P cutoff u) ∧
  (∀ e ∈ acc, ∃ s, firstActiveSlot P cutoff e.UserID = some s
    ∧ e.Username = s.Username)

/-- Structural well-formedness of a manager state: membership lists hold
in-bounds indices owned by their key, with no duplicates within or across
lists, no empty entries, distinct keys, per-user and global caps respected,
every allocated index registered both under its owner and in the LRU order,
and the LRU order duplicate-free and in bounds. -/
def WFs (m : ActiveTaskSlotManager) : Prop :=
  (∀ p ∈ m.userSlotIdx,
     (∀ i ∈ p.2, i < m.slots.length ∧ (m.slots.getD i defaultSlot).UserID = p.1)
     ∧ p.2.Nodup ∧ p.2 ≠ [] ∧ p.2.length ≤ MaxUserSlots) ∧
  (m.userSlotIdx.map Prod.fst).Nodup ∧
  (∀ i, i < m.slots.length →
     i ∈ lookupIdx m.userSlotIdx (m.slots.getD i defaultSlot).UserID) ∧
  m.lruOrder.Nodup ∧
  (∀ i ∈ m.lruOrder, i < m.slots.length) ∧
  (∀ i, i < m.slots.length → i ∈ m.lruOrder) ∧
  m.slots.length ≤ MaxGlobalSlots

/-- The LRU order is consistent with per-slot timestamps: earlier entries
were touched no later than later entries. -/
def SortedLRU (m : ActiveTaskSlotManager) : Prop :=
  m.lruOrder.Pairwise (fun a b =>
    (m.slots.getD a defaultSlot).UpdatedAt ≤ (m.slots.getD b defaultSlot).UpdatedAt)

/-- All stored timestamps are at most `now` (wall clock does not precede
stored touches). -/
def BoundedTS (m : ActiveTaskSlotManager) (now : Int) : Prop :=
  ∀ s ∈ m.slots, s.UpdatedAt ≤ now

instance (m : ActiveTaskSlotManager) : Decidable (WFs m) := by
  unfold WFs; infer_instance

instance (m : ActiveTaskSlotManager) : Decidable (SortedLRU m) := by
  unfold SortedLRU; infer_instance

instance (m : ActiveTaskSlotManager) (now : Int) : Decidable (BoundedTS m now) := by
  unfold BoundedTS; infer_instance

/-! ### Association-list lemmas for the user index -/

theorem lookupIdx_cases (l : List (Int × List Nat)) (u : Int) :
    lookupIdx l u = [] ∨ ∃ p ∈ l, p.1 = u ∧ lookupIdx l u = p.2 := by
  cases hf : l.find? (fun q => q.1 == u) with
  | none => left; simp [lookupIdx, hf]
  | some p =>
    right
    refine ⟨p, List.mem_of_find?_eq_some hf, ?_, by simp [lookupIdx, hf]⟩
    simpa using List.find?_some hf

theorem lookupIdx_eq_nil_of_not_mem {l : List (Int × List Nat)} {u : Int}
    (h : ∀ p ∈ l, p.1 ≠ u) : lookupIdx l u = [] := by
  have : l.find? (fun q => q.1 == u) = none := by
    rw [List.find?_eq_none]
    intro p hp
    simpa using h p hp
  simp [lookupIdx, this]

theorem lookupIdx_cons_pos {p : Int × List Nat} {l : List (Int × List Nat)}
    {u : Int} (h : p.1 = u) : lookupIdx (p :: l) u = p.2 := by
  unfold lookupIdx
  rw [List.find?_cons_of_pos _ (by simpa using h)]

theorem lookupIdx_cons_neg {p : Int × List Nat} {l : List (Int × List Nat)}
    {u : Int} (h : p.1 ≠ u) : lookupIdx (p :: l) u = lookupIdx l u := by
  unfold lookupIdx
  rw [List.find?_cons_of_neg _ (by simpa using h)]

theorem lookupIdx_map_upd (l : List (Int × List Nat)) (u : Int) (v : List Nat) :
    lookupIdx (l.map (fun p => if p.1 == u then (u, v) else p)) u
      = (if l.any (fun p => p.1 == u) then v else []) := by
  induction l with
  | nil => rfl
  | cons p l ih =>
    rw [List.map_cons]
    cases hb : (p.1 == u) with
    | true =>
      have h1 : (if (true : Bool) = true then ((u, v) : Int × List Nat) else p)
          = (u, v) := rfl
      rw [h1, lookupIdx_cons_pos (p := (u, v)) rfl,
        if_pos (by simp [List.any_cons, hb])]
    | false =>
      have h1 : (if (false : Bool) = true then ((u, v) : Int × List Nat) else p)
          = p := rfl
      rw [h1, lookupIdx_cons_neg (by simpa using hb), ih]
      have h2 : ((p :: l).any fun q => q.1 == u) = (l.any fun q => q.1 == u) := by
        simp [List.any_cons, hb]
      rw [h2]

theorem lookupIdx_map_upd_ne (l : List (Int × List Nat)) {u u' : Int}
    (v : List Nat) (hne : u' ≠ u) :
    lookupIdx (l.map (fun p => if p.1 == u then (u, v) else p)) u'
      = lookupIdx l u' := by
  induction l with
  | nil => rfl
  | cons p l ih =>
    rw [List.map_cons]
    cases hb : (p.1 == u) with
    | true =>
      have hp1 : p.1 = u := by simpa using hb
      have h1 : (if (true : Bool) = true then ((u, v) : Int × List Nat) else p)
          = (u, v) := rfl
      rw [h1, lookupIdx_cons_neg (p := (u, v)) (fun e => hne e.symm),
        lookupIdx_cons_neg (fun e => hne (hp1 ▸ e).symm)]
      exact ih
    | false =>
      have h1 : (if (false : Bool) = true then ((u, v) : Int × List Nat) else p)
          = p := rfl
      rw [h1]
      by_cases h' : p.1 = u'
      · rw [lookupIdx_cons_pos h', lookupIdx_cons_pos h']
      · rw [lookupIdx_cons_neg h', lookupIdx_cons_neg h']
        exact ih

theorem lookupIdx_append_single_pos (l : List (Int × List Nat)) (u : Int)
    (v : List Nat) (hn : ∀ p ∈ l, p.1 ≠ u) :
    lookupIdx (l ++ [(u, v)]) u = v := by
  induction l with
  | nil => exact lookupIdx_cons_pos rfl
  | cons p l ih =>
    rw [List.cons_append, lookupIdx_cons_neg (hn p (by simp))]
    exact ih (fun q hq => hn q (by simp [hq]))

theorem lookupIdx_append_single_ne (l : List (Int × List Nat)) {u u' : Int}
    (v : List Nat) (hne : u' ≠ u) :
    lookupIdx (l ++ [(u, v)]) u' = lookupIdx l u' := by
  induction l with
  | nil => exact lookupIdx_cons_neg (p := (u, v)) (fun e => hne e.symm)
  | cons p l ih =>
    by_cases h' : p.1 = u'
    · rw [List.cons_append, lookupIdx_cons_pos h', lookupIdx_cons_pos h']
    · rw [List.cons_append, lookupIdx_cons_neg h', lookupIdx_cons_neg h']
      exact ih

theorem lookupIdx_setIdx_self (l : List (Int × List Nat)) (u : Int)
    (v : List Nat) : lookupIdx (setIdx l u v) u = v := by
  by_cases h : l.any (fun p => p.1 == u)
  · simp only [setIdx, if_pos h]
    rw [lookupIdx_map_upd, if_pos h]
  · simp only [setIdx, if_neg h]
    refine lookupIdx_append_single_pos l u v (fun p hp hc => ?_)
    exact h (List.any_eq_true.2 ⟨p, hp, by simpa using hc⟩)

theorem lookupIdx_setIdx_ne (l : List (Int × List Nat)) {u u' : Int}
    (v : List Nat) (hne : u' ≠ u) :
    lookupIdx (setIdx l u v) u' = lookupIdx l u' := by
  by_cases h : l.any (fun p => p.1 == u)
  · simp only [setIdx, if_pos h]
    exact lookupIdx_map_upd_ne l v hne
  · simp only [setIdx, if_neg h]
    exact lookupIdx_append_single_ne l v hne

theorem keys_setIdx_of_any (l : List (Int × List Nat)) (u : Int)
    (v : List Nat) (h : l.any (fun p => p.1 == u)) :
    (setIdx l u v).map Prod.fst = l.map Prod.fst := by
  simp only [setIdx, if_pos h, List.map_map]
  refine List.map_congr_left (fun p _ => ?_)
  by_cases hp : p.1 = u <;> simp [hp]

theorem keysNodup_setIdx (l : List (Int × List Nat)) (u : Int)
    (v : List Nat) (hd : (l.map Prod.fst).Nodup) :
    ((setIdx l u v).map Prod.fst).Nodup := by
  by_cases h : l.any (fun p => p.1 == u)
  · rw [keys_setIdx_of_any l u v h]; exact hd
  · have hu : u ∉ l.map Prod.fst := by
      intro hm
      rcases List.mem_map.1 hm with ⟨p, hp, hfst⟩
      exact h (List.any_eq_true.2 ⟨p, hp, by simpa using hfst⟩)
    simp only [setIdx, if_neg h, List.map_append, List.map_cons, List.map_nil]
    refine List.Nodup.append hd (by simp) ?_
    intro a ha hb
    rw [List.mem_singleton] at hb
    exact hu (hb ▸ ha)

theorem mem_setIdx (l : List (Int × List Nat)) (u : Int) (v : List Nat)
    (p : Int × List Nat) (hp : p ∈ setIdx l u v) :
    p = (u, v) ∨ (p ∈ l ∧ p.1 ≠ u) := by
  by_cases h : l.any (fun q => q.1 == u)
  · simp only [setIdx, if_pos h] at hp
    rcases List.mem_map.1 hp with ⟨q, hq, hfq⟩
    by_cases hq1 : q.1 = u
    · left
      have : (if q.1 == u then ((u, v) : Int × List Nat) else q) = (u, v) := by
        simp [hq1]
      rw [← hfq, this]
    · right
      have heq : (if q.1 == u then ((u, v) : Int × List Nat) else q) = q := by
        simp [hq1]
      rw [← hfq, heq]
      exact ⟨hq, hq1⟩
  · simp only [setIdx, if_neg h, List.mem_append, List.mem_singleton] at hp
    rcases hp with hin | heq
    · refine Or.inr ⟨hin, fun hc => ?_⟩
      exact h (List.any_eq_true.2 ⟨p, hin, by simpa using hc⟩)
    · exact Or.inl heq

theorem lookupIdx_eraseKey_self (l : List (Int × List Nat)) (u : Int) :
    lookupIdx (eraseKey l u) u = [] := by
  refine lookupIdx_eq_nil_of_not_mem (fun p hp => ?_)
  have := List.of_mem_filter hp
  simpa using this

theorem lookupIdx_eraseKey_ne (l : List (Int × List Nat)) {u u' : Int}
    (hne : u' ≠ u) : lookupIdx (eraseKey l u) u' = lookupIdx l u' := by
  induction l with
  | nil => rfl
  | cons p l ih =>
    by_cases h : p.1 = u
    · have hb' : (p.1 == u') = false := by
        simp [h]; exact fun e => hne e.symm
      simp only [eraseKey, List.filter_cons]
      simp only [h, bne_self_eq_false]
      simpa [lookupIdx, hb', eraseKey] using ih
    · have hb : (p.1 != u) = true := by simpa using h
      simp only [eraseKey, List.filter_cons, hb]
      by_cases h' : p.1 = u'
      · simp [lookupIdx, h']
      · have hb' : (p.1 == u') = false := by simpa using h'
        simpa [lookupIdx, hb', eraseKey] using ih

theorem keysNodup_eraseKey (l : List (Int × List Nat)) (u : Int)
    (hd : (l.map Prod.fst).Nodup) : ((eraseKey l u).map Prod.fst).Nodup :=
  ((List.filter_sublist l).map Prod.fst).nodup hd

theorem mem_eraseKey (l : List (Int × List Nat)) (u : Int)
    (p : Int × List Nat) (hp : p ∈ eraseKey l u) : p ∈ l ∧ p.1 ≠ u := by
  refine ⟨List.mem_of_mem_filter hp, ?_⟩
  have := List.of_mem_filter hp
  simpa using this

theorem notMem_keys_eraseKey (l : List (Int × List Nat)) (u : Int) :
    u ∉ (eraseKey l u).map Prod.fst := by
  intro hm
  rcases List.mem_map.1 hm with ⟨p, hp, hfst⟩
  exact (mem_eraseKey l u p hp).2 hfst

theorem lookupIdx_remove_self (l : List (Int × List Nat)) (u : Int)
    (idx : Nat) :
    lookupIdx (removeFromUserSlotIdx l u idx) u = (lookupIdx l u).erase idx := by
  unfold removeFromUserSlotIdx
  by_cases h : (lookupIdx l u).erase idx = []
  · rw [if_pos h, lookupIdx_eraseKey_self, h]
  · rw [if_neg h]
    exact lookupIdx_setIdx_self l u _

theorem lookupIdx_remove_ne (l : List (Int × List Nat)) {u u' : Int}
    (idx : Nat) (hne : u' ≠ u) :
    lookupIdx (removeFromUserSlotIdx l u idx) u' = lookupIdx l u' := by
  unfold removeFromUserSlotIdx
  by_cases h : (lookupIdx l u).erase idx = []
  · rw [if_pos h]
    exact lookupIdx_eraseKey_ne l hne
  · rw [if_neg h]
    exact lookupIdx_setIdx_ne l _ hne

theorem keysNodup_remove (l : List (Int × List Nat)) (u : Int) (idx : Nat)
    (hd : (l.map Prod.fst).Nodup) :
    ((removeFromUserSlotIdx l u idx).map Prod.fst).Nodup := by
  unfold removeFromUserSlotIdx
  by_cases h : (lookupIdx l u).erase idx = []
  · rw [if_pos h]; exact keysNodup_eraseKey l u hd
  · rw [if_neg h]; exact keysNodup_setIdx l u _ hd

theorem mem_remove (l : List (Int × List Nat)) (u : Int) (idx : Nat)
    (p : Int × List Nat) (hp : p ∈ removeFromUserSlotIdx l u idx) :
    (p ∈ l ∧ p.1 ≠ u) ∨ (p = (u, (lookupIdx l u).erase idx) ∧ p.2 ≠ []) := by
  unfold removeFromUserSlotIdx at hp
  by_cases h : (lookupIdx l u).erase idx = []
  · rw [if_pos h] at hp
    exact Or.inl (mem_eraseKey l u p hp)
  · rw [if_neg h] at hp
    rcases mem_setIdx _ _ _ _ hp with heq | hin
    · exact Or.inr ⟨heq, by simpa [heq] using h⟩
    · exact Or.inl hin

/-! ### `getD` helpers for the slot store -/

theorem getD_set_self (l : List TaskSlot) (i : Nat) (a d : TaskSlot)
    (h : i < l.length) : (l.set i a).getD i d = a := by
  simp [List.getD_eq_getElem?_getD, List.getElem?_set_self h]

theorem getD_set_ne (l : List TaskSlot) {i j : Nat} (a d : TaskSlot)
    (h : i ≠ j) : (l.set i a).getD j d = l.getD j d := by
  simp [List.getD_eq_getElem?_getD, List.getElem?_set_ne h]

theorem getD_append_left (l l' : List TaskSlot) (i : Nat) (d : TaskSlot)
    (h : i < l.length) : (l ++ l').getD i d = l.getD i d := by
  simp [List.getD_eq_getElem?_getD, List.getElem?_append_left h]

theorem getD_concat_self (l : List TaskSlot) (a d : TaskSlot) :
    (l ++ [a]).getD l.length d = a := by
  simp [List.getD_eq_getElem?_getD, List.getElem?_append_right (Nat.le_refl _)]

theorem getD_mem (l : List TaskSlot) (i : Nat) (d : TaskSlot)
    (h : i < l.length) : l.getD i d ∈ l := by
  rw [List.getD_eq_getElem?_getD, List.getElem?_eq_getElem h]
  exact List.getElem_mem h

/-! ### Accessors for the invariant -/

theorem wfs_entries {m : ActiveTaskSlotManager} (h : WFs m) :
    ∀ p ∈ m.userSlotIdx,
      (∀ i ∈ p.2, i < m.slots.length ∧ (m.slots.getD i defaultSlot).UserID = p.1)
      ∧ p.2.Nodup ∧ p.2 ≠ [] ∧ p.2.length ≤ MaxUserSlots := h.1

theorem wfs_keysNodup {m : ActiveTaskSlotManager} (h : WFs m) :
    (m.userSlotIdx.map Prod.fst).Nodup := h.2.1

theorem wfs_complete {m : ActiveTaskSlotManager} (h : WFs m) :
    ∀ i, i < m.slots.length →
      i ∈ lookupIdx m.userSlotIdx (m.slots.getD i defaultSlot).UserID := h.2.2.1

theorem wfs_lruNodup {m : ActiveTaskSlotManager} (h : WFs m) :
    m.lruOrder.Nodup := h.2.2.2.1

theorem wfs_lruLt {m : ActiveTaskSlotManager} (h : WFs m) :
    ∀ i ∈ m.lruOrder, i < m.slots.length := h.2.2.2.2.1

theorem wfs_lruComplete {m : ActiveTaskSlotManager} (h : WFs m) :
    ∀ i, i < m.slots.length → i ∈ m.lruOrder := h.2.2.2.2.2.1

theorem wfs_globalCap {m : ActiveTaskSlotManager} (h : WFs m) :
    m.slots.length ≤ MaxGlobalSlots := h.2.2.2.2.2.2

theorem wfs_lookup_owned {m : ActiveTaskSlotManager} (h : WFs m) (u : Int) :
    ∀ i ∈ lookupIdx m.userSlotIdx u,
      i < m.slots.length ∧ (m.slots.getD i defaultSlot).UserID = u := by
  intro i hi
  rcases lookupIdx_cases m.userSlotIdx u with hnil | ⟨p, hp, hp1, heq⟩
  · rw [hnil] at hi; cases hi
  · rw [heq] at hi
    have hq := (wfs_entries h p hp).1 i hi
    exact ⟨hq.1, hp1 ▸ hq.2⟩

theorem wfs_lookup_nodup {m : ActiveTaskSlotManager} (h : WFs m) (u : Int) :
    (lookupIdx m.userSlotIdx u).Nodup := by
  rcases lookupIdx_cases m.userSlotIdx u with hnil | ⟨p, hp, _, heq⟩
  · rw [hnil]; exact List.nodup_nil
  · rw [heq]; exact (wfs_entries h p hp).2.1

theorem wfs_lookup_len {m : ActiveTaskSlotManager} (h : WFs m) (u : Int) :
    (lookupIdx m.userSlotIdx u).length ≤ MaxUserSlots := by
  rcases lookupIdx_cases m.userSlotIdx u with hnil | ⟨p, hp, _, heq⟩
  · rw [hnil]; exact Nat.zero_le _
  · rw [heq]; exact (wfs_entries h p hp).2.2.2

theorem wfs_lookup_disjoint {m : ActiveTaskSlotManager} (h : WFs m)
    {u u' : Int} (hne : u ≠ u') (i : Nat)
    (hi : i ∈ lookupIdx m.userSlotIdx u) :
    i ∉ lookupIdx m.userSlotIdx u' := by
  intro hi'
  exact hne (((wfs_lookup_owned h u i hi).2.symm).trans
    (wfs_lookup_owned h u' i hi').2)

/-! ### `moveToLRUEnd` helpers -/

theorem moveToLRUEnd_nodup (l : List Nat) (idx : Nat) (h : l.Nodup) :
    (moveToLRUEnd l idx).Nodup := by
  unfold moveToLRUEnd
  refine List.Nodup.append (h.erase idx) (by simp) ?_
  intro a ha hb
  rw [List.mem_singleton] at hb
  subst hb
  exact h.not_mem_erase ha

theorem mem_moveToLRUEnd_self (l : List Nat) (idx : Nat) :
    idx ∈ moveToLRUEnd l idx := by
  unfold moveToLRUEnd
  exact List.mem_append_right _ (by simp)

theorem mem_moveToLRUEnd_of_ne (l : List Nat) {idx i : Nat} (hne : i ≠ idx)
    (hi : i ∈ l) : i ∈ moveToLRUEnd l idx := by
  unfold moveToLRUEnd
  exact List.mem_append_left _ ((List.mem_erase_of_ne hne).2 hi)

theorem mem_of_mem_moveToLRUEnd (l : List Nat) {idx i : Nat}
    (hi : i ∈ moveToLRUEnd l idx) : i = idx ∨ i ∈ l := by
  unfold moveToLRUEnd at hi
  rcases List.mem_append.1 hi with hl | hr
  · exact Or.inr (List.mem_of_mem_erase hl)
  · rw [List.mem_singleton] at hr
    exact Or.inl hr

/-- Pairwise-sortedness of the LRU list after overwriting slot `idx` with a
fresh timestamp that is at least every stored timestamp, and moving `idx`
to the most-recently-used end. -/
theorem sorted_set_move (slots : List TaskSlot) (lru : List Nat) (idx : Nat)
    (slot' : TaskSlot) (hidx : idx < slots.length)
    (hnodup : lru.Nodup) (hlt : ∀ i ∈ lru, i < slots.length)
    (hsort : lru.Pairwise (fun a b =>
      (slots.getD a defaultSlot).UpdatedAt ≤ (slots.getD b defaultSlot).UpdatedAt))
    (hts : ∀ s ∈ slots, s.UpdatedAt ≤ slot'.UpdatedAt) :
    (moveToLRUEnd lru idx).Pairwise (fun a b =>
      ((slots.set idx slot').getD a defaultSlot).UpdatedAt
        ≤ ((slots.set idx slot').getD b defaultSlot).UpdatedAt) := by
  unfold moveToLRUEnd
  have hnotmem : idx ∉ lru.erase idx := hnodup.not_mem_erase
  rw [List.pairwise_append]
  refine ⟨?_, by simp, ?_⟩
  · have hsub : List.Sublist (lru.erase idx) lru := List.erase_sublist idx lru
    have herased := hsort.sublist hsub
    refine herased.imp_of_mem ?_
    intro x y hx hy hxy
    have hxne : idx ≠ x := fun e => hnotmem (by rw [← e] at hx; exact hx)
    have hyne : idx ≠ y := fun e => hnotmem (by rw [← e] at hy; exact hy)
    rw [getD_set_ne slots slot' defaultSlot hxne,
      getD_set_ne slots slot' defaultSlot hyne]
    exact hxy
  · intro a ha b hb
    rw [List.mem_singleton] at hb
    have hane : idx ≠ a := fun e => hnotmem (by rw [← e] at ha; exact ha)
    rw [hb, getD_set_ne slots slot' defaultSlot hane,
      getD_set_self slots idx slot' defaultSlot hidx]
    exact hts _ (getD_mem slots a defaultSlot
      (hlt a (List.mem_of_mem_erase ha)))

/-! ### Invariant preservation: in-place update of one slot plus LRU move -/

theorem WFs_set_move (m : ActiveTaskSlotManager) (idx : Nat) (slot' : TaskSlot)
    (hWF : WFs m) (hidx : idx < m.slots.length)
    (howner : slot'.UserID = (m.slots.getD idx defaultSlot).UserID) :
    WFs ⟨m.slots.set idx slot', m.userSlotIdx, moveToLRUEnd m.lruOrder idx⟩ := by
  have hlen : (m.slots.set idx slot').length = m.slots.length := by
    simp
  have howner' : ∀ j, ((m.slots.set idx slot').getD j defaultSlot).UserID
      = (m.slots.getD j defaultSlot).UserID := by
    intro j
    by_cases hj : idx = j
    · rw [← hj, getD_set_self _ _ _ _ hidx, howner]
    · rw [getD_set_ne _ _ _ hj]
  refine ⟨?_, wfs_keysNodup (m := m) hWF, ?_, ?_, ?_, ?_, ?_⟩
  · intro p hp
    have hold := wfs_entries hWF p hp
    refine ⟨fun i hi => ?_, hold.2.1, hold.2.2.1, hold.2.2.2⟩
    have hi' := hold.1 i hi
    rw [hlen, howner' i]
    exact hi'
  · intro i hi
    rw [hlen] at hi
    rw [howner' i]
    exact wfs_complete hWF i hi
  · exact moveToLRUEnd_nodup _ _ (wfs_lruNodup hWF)
  · intro i hi
    rw [hlen]
    rcases mem_of_mem_moveToLRUEnd _ hi with he | hm
    · rw [he]; exact hidx
    · exact wfs_lruLt hWF i hm
  · intro i hi
    rw [hlen] at hi
    by_cases he : i = idx
    · rw [he]; exact mem_moveToLRUEnd_self _ _
    · exact mem_moveToLRUEnd_of_ne _ he (wfs_lruComplete hWF i hi)
  · rw [hlen]; exact wfs_globalCap hWF

/-! ### Invariant preservation: allocation of a fresh slot -/

theorem WFs_alloc (m : ActiveTaskSlotManager) (uid : Int) (uname : String)
    (now : Int) (hash : Nat) (hWF : WFs m)
    (hcap : (lookupIdx m.userSlotIdx uid).length < MaxUserSlots)
    (hglob : m.slots.length < MaxGlobalSlots) :
    WFs ⟨m.slots ++ [⟨uid, uname, now, hash⟩],
         setIdx m.userSlotIdx uid
           (lookupIdx m.userSlotIdx uid ++ [m.slots.length]),
         m.lruOrder ++ [m.slots.length]⟩ := by
  set n := m.slots.length with hn
  have hlen : (m.slots ++ [(⟨uid, uname, now, hash⟩ : TaskSlot)]).length = n + 1 := by
    simp [hn]
  have hgetlt : ∀ j, j < n →
      ((m.slots ++ [(⟨uid, uname, now, hash⟩ : TaskSlot)]).getD j defaultSlot)
        = m.slots.getD j defaultSlot := fun j hj => getD_append_left _ _ _ _ hj
  have hgetn : ((m.slots ++ [(⟨uid, uname, now, hash⟩ : TaskSlot)]).getD n defaultSlot)
      = ⟨uid, uname, now, hash⟩ := getD_concat_self _ _ _
  refine ⟨?_, keysNodup_setIdx _ _ _ (wfs_keysNodup hWF), ?_, ?_, ?_, ?_, ?_⟩
  · intro p hp
    rcases mem_setIdx _ _ _ _ hp with heq | ⟨hin, hne⟩
    · subst heq
      refine ⟨?_, ?_, by simp, ?_⟩
      · intro i hi
        rcases List.mem_append.1 hi with hiold | hinew
        · have hio := wfs_lookup_owned hWF uid i hiold
          rw [hlen, hgetlt i hio.1]
          exact ⟨by omega, hio.2⟩
        · rw [List.mem_singleton] at hinew
          subst hinew
          rw [hlen, hgetn]
          exact ⟨by omega, rfl⟩
      · refine List.Nodup.append (wfs_lookup_nodup hWF uid) (by simp) ?_
        intro a ha hb
        rw [List.mem_singleton] at hb
        subst hb
        exact absurd (wfs_lookup_owned hWF uid _ ha).1 (by omega)
      · rw [List.length_append, List.length_singleton]
        omega
    · have hold := wfs_entries hWF p hin
      refine ⟨fun i hi => ?_, hold.2.1, hold.2.2.1, hold.2.2.2⟩
      have hi' := hold.1 i hi
      rw [hlen, hgetlt i hi'.1]
      exact ⟨by omega, hi'.2⟩
  · intro i hi
    rw [hlen] at hi
    by_cases hin : i < n
    · rw [hgetlt i hin]
      set u0 := (m.slots.getD i defaultSlot).UserID with hu0
      by_cases hu : u0 = uid
      · rw [hu, lookupIdx_setIdx_self]
        exact List.mem_append_left _ (hu ▸ wfs_complete hWF i hin)
      · rw [lookupIdx_setIdx_ne _ _ hu]
        exact wfs_complete hWF i hin
    · have hieq : i = n := by omega
      subst hieq
      rw [hgetn]
      rw [lookupIdx_setIdx_self]
      exact List.mem_append_right _ (by simp)
  · refine List.Nodup.append (wfs_lruNodup hWF) (by simp) ?_
    intro a ha hb
    rw [List.mem_singleton] at hb
    subst hb
    exact absurd (wfs_lruLt hWF _ ha) (by omega)
  · intro i hi
    rw [hlen]
    rcases List.mem_append.1 hi with hm | hm
    · have := wfs_lruLt hWF i hm; omega
    · rw [List.mem_singleton] at hm; omega
  · intro i hi
    rw [hlen] at hi
    by_cases hin : i < n
    · exact List.mem_append_left _ (wfs_lruComplete hWF i hin)
    · have : i = n := by omega
      exact List.mem_append_right _ (by simp [this])
  · rw [hlen]
    have h1000 : n < MaxGlobalSlots := hglob
    omega

/-! ### Invariant preservation: slot reuse -/

theorem reuseSlot_eq_same (m : ActiveTaskSlotManager) (idx : Nat) (uid : Int)
    (uname : String) (now : Int) (hash : Nat)
    (howner : (m.slots.getD idx defaultSlot).UserID = uid) :
    reuseSlot m idx uid uname now hash =
      ⟨m.slots.set idx ⟨uid, uname, now, hash⟩, m.userSlotIdx,
       moveToLRUEnd m.lruOrder idx⟩ := by
  simp only [reuseSlot]
  rw [if_neg (not_not_intro howner)]

theorem reuseSlot_eq_diff (m : ActiveTaskSlotManager) (idx : Nat) (uid : Int)
    (uname : String) (now : Int) (hash : Nat)
    (hdiff : (m.slots.getD idx defaultSlot).UserID ≠ uid) :
    reuseSlot m idx uid uname now hash =
      ⟨m.slots.set idx ⟨uid, uname, now, hash⟩,
       setIdx (removeFromUserSlotIdx m.userSlotIdx
           (m.slots.getD idx defaultSlot).UserID idx) uid
         (lookupIdx (removeFromUserSlotIdx m.userSlotIdx
           (m.slots.getD idx defaultSlot).UserID idx) uid ++ [idx]),
       moveToLRUEnd m.lruOrder idx⟩ := by
  simp only [reuseSlot]
  rw [if_pos hdiff]

theorem WFs_reuse_diff (m : ActiveTaskSlotManager) (idx : Nat) (uid : Int)
    (uname : String) (now : Int) (hash : Nat) (hWF : WFs m)
    (hidx : idx < m.slots.length)
    (hdiff : (m.slots.getD idx defaultSlot).UserID ≠ uid)
    (hcap : (lookupIdx m.userSlotIdx uid).length < MaxUserSlots) :
    WFs (reuseSlot m idx uid uname now hash) := by
  rw [reuseSlot_eq_diff m idx uid uname now hash hdiff]
  set oldU := (m.slots.getD idx defaultSlot).UserID with holdU
  set L := m.userSlotIdx with hL
  set L1 := removeFromUserSlotIdx L oldU idx with hL1
  set slots' := m.slots.set idx ⟨uid, uname, now, hash⟩ with hslots'
  have hneq : uid ≠ oldU := fun e => hdiff e.symm
  have hidxmem : idx ∈ lookupIdx L oldU := wfs_complete hWF idx hidx
  have hl1uid : lookupIdx L1 uid = lookupIdx L uid :=
    lookupIdx_remove_ne L idx hneq
  have hl2uid : lookupIdx (setIdx L1 uid (lookupIdx L1 uid ++ [idx])) uid
      = lookupIdx L uid ++ [idx] := by
    rw [lookupIdx_setIdx_self, hl1uid]
  have hl2old : lookupIdx (setIdx L1 uid (lookupIdx L1 uid ++ [idx])) oldU
      = (lookupIdx L oldU).erase idx := by
    rw [lookupIdx_setIdx_ne _ _ hdiff, hL1, lookupIdx_remove_self]
  have hl2other : ∀ u : Int, u ≠ uid → u ≠ oldU →
      lookupIdx (setIdx L1 uid (lookupIdx L1 uid ++ [idx])) u = lookupIdx L u := by
    intro u hu1 hu2
    rw [lookupIdx_setIdx_ne _ _ hu1, hL1, lookupIdx_remove_ne _ _ hu2]
  have hlen : slots'.length = m.slots.length := by simp [hslots']
  have howner' : ∀ j, idx ≠ j →
      (slots'.getD j defaultSlot).UserID = (m.slots.getD j defaultSlot).UserID := by
    intro j hj
    rw [hslots', getD_set_ne _ _ _ hj]
  have howneridx : (slots'.getD idx defaultSlot).UserID = uid := by
    rw [hslots', getD_set_self _ _ _ _ hidx]
  have hidxnotinuid : idx ∉ lookupIdx L uid :=
    fun hmem => hdiff (wfs_lookup_owned hWF uid idx hmem).2
  refine ⟨?_, keysNodup_setIdx _ _ _ (keysNodup_remove _ _ _ (wfs_keysNodup hWF)),
    ?_, ?_, ?_, ?_, ?_⟩
  · intro p hp
    rcases mem_setIdx _ _ _ _ hp with heq | ⟨hin1, hneuid⟩
    · subst heq
      rw [hl1uid]
      refine ⟨?_, ?_, by simp, ?_⟩
      · intro i hi
        rcases List.mem_append.1 hi with hiold | hinew
        · have hio := wfs_lookup_owned hWF uid i hiold
          have hine : idx ≠ i := fun e => hidxnotinuid (e ▸ hiold)
          rw [hlen, howner' i hine]
          exact hio
        · rw [List.mem_singleton] at hinew
          subst hinew
          rw [hlen, howneridx]
          exact ⟨hidx, rfl⟩
      · refine List.Nodup.append (wfs_lookup_nodup hWF uid) (by simp) ?_
        intro a ha hb
        rw [List.mem_singleton] at hb
        subst hb
        exact hidxnotinuid ha
      · rw [List.length_append, List.length_singleton]
        omega
    · rcases mem_remove L oldU idx p hin1 with ⟨hinL, hneold⟩ | ⟨heqold, hne2⟩
      · have hold := wfs_entries hWF p hinL
        refine ⟨fun i hi => ?_, hold.2.1, hold.2.2.1, hold.2.2.2⟩
        have hi' := hold.1 i hi
        have hine : idx ≠ i := by
          intro e
          exact hneold (by rw [← hi'.2, ← e])
        rw [hlen, howner' i hine]
        exact hi'
      · subst heqold
        have hnodupold := wfs_lookup_nodup hWF oldU
        refine ⟨?_, hnodupold.erase idx, hne2, ?_⟩
        · intro i hi
          have hi0 : i ∈ lookupIdx L oldU := List.mem_of_mem_erase hi
          have hio := wfs_lookup_owned hWF oldU i hi0
          have hine : idx ≠ i := by
            intro e
            exact hnodupold.not_mem_erase (e ▸ hi)
          rw [hlen, howner' i hine]
          exact hio
        · calc ((lookupIdx L oldU).erase idx).length
              ≤ (lookupIdx L oldU).length :=
                (List.erase_sublist idx _).length_le
            _ ≤ MaxUserSlots := wfs_lookup_len hWF oldU
  · intro i hi
    rw [hlen] at hi
    by_cases hie : i = idx
    · subst hie
      rw [howneridx, hl2uid]
      exact List.mem_append_right _ (by simp)
    · rw [howner' i (fun e => hie e.symm)]
      set u0 := (m.slots.getD i defaultSlot).UserID with hu0
      have hicomp := wfs_complete hWF i hi
      by_cases hu : u0 = uid
      · rw [hu, hl2uid]
        exact List.mem_append_left _ (hu ▸ hicomp)
      · by_cases ho : u0 = oldU
        · rw [ho, hl2old]
          exact (List.mem_erase_of_ne hie).2 (ho ▸ hicomp)
        · rw [hl2other u0 hu ho]
          exact hicomp
  · exact moveToLRUEnd_nodup _ _ (wfs_lruNodup hWF)
  · intro i hi
    rw [hlen]
    rcases mem_of_mem_moveToLRUEnd _ hi with he | hm
    · rw [he]; exact hidx
    · exact wfs_lruLt hWF i hm
  · intro i hi
    rw [hlen] at hi
    by_cases he : i = idx
    · rw [he]; exact mem_moveToLRUEnd_self _ _
    · exact mem_moveToLRUEnd_of_ne _ he (wfs_lruComplete hWF i hi)
  · rw [hlen]; exact wfs_globalCap hWF

/-! ### Sortedness and timestamp bounds for allocation -/

theorem sorted_alloc (slots : List TaskSlot) (lru : List Nat) (new : TaskSlot)
    (hlt : ∀ i ∈ lru, i < slots.length)
    (hsort : lru.Pairwise (fun a b =>
      (slots.getD a defaultSlot).UpdatedAt ≤ (slots.getD b defaultSlot).UpdatedAt))
    (hts : ∀ s ∈ slots, s.UpdatedAt ≤ new.UpdatedAt) :
    (lru ++ [slots.length]).Pairwise (fun a b =>
      ((slots ++ [new]).getD a defaultSlot).UpdatedAt
        ≤ ((slots ++ [new]).getD b defaultSlot).UpdatedAt) := by
  rw [List.pairwise_append]
  refine ⟨?_, by simp, ?_⟩
  · refine hsort.imp_of_mem ?_
    intro x y hx hy hxy
    rw [getD_append_left _ _ _ _ (hlt x hx), getD_append_left _ _ _ _ (hlt y hy)]
    exact hxy
  · intro a ha b hb
    rw [List.mem_singleton] at hb
    subst hb
    rw [getD_append_left _ _ _ _ (hlt a ha), getD_concat_self]
    exact hts _ (getD_mem slots a defaultSlot (hlt a ha))

theorem bounded_set (slots : List TaskSlot) (idx : Nat) (slot' : TaskSlot)
    (now : Int) (hts : ∀ s ∈ slots, s.UpdatedAt ≤ now)
    (hnew : slot'.UpdatedAt ≤ now) :
    ∀ s ∈ slots.set idx slot', s.UpdatedAt ≤ now := by
  intro s hs
  rcases List.mem_or_eq_of_mem_set hs with hm | he
  · exact hts s hm
  · rw [he]; exact hnew

theorem bounded_append (slots : List TaskSlot) (new : TaskSlot) (now : Int)
    (hts : ∀ s ∈ slots, s.UpdatedAt ≤ now) (hnew : new.UpdatedAt ≤ now) :
    ∀ s ∈ slots ++ [new], s.UpdatedAt ≤ now := by
  intro s hs
  rcases List.mem_append.1 hs with hm | hm
  · exact hts s hm
  · rw [List.mem_singleton] at hm
    rw [hm]; exact hnew

/-! ### `findOldestUserSlot` returns a user slot of minimal timestamp -/

theorem oldestFold_spec (slots : List TaskSlot) (rest : List Nat) (i : Nat) :
    (oldestFold slots i rest ∈ i :: rest)
    ∧ (slots.getD (oldestFold slots i rest) defaultSlot).UpdatedAt
        ≤ (slots.getD i defaultSlot).UpdatedAt
    ∧ ∀ j ∈ rest, (slots.getD (oldestFold slots i rest) defaultSlot).UpdatedAt
        ≤ (slots.getD j defaultSlot).UpdatedAt := by
  induction rest generalizing i with
  | nil => exact ⟨by simp [oldestFold], le_refl _, by simp⟩
  | cons j rest ih =>
    have hstep : oldestFold slots i (j :: rest)
        = oldestFold slots
            (if (slots.getD j defaultSlot).UpdatedAt
                < (slots.getD i defaultSlot).UpdatedAt then j else i) rest := by
      simp [oldestFold]
    by_cases hj : (slots.getD j defaultSlot).UpdatedAt
        < (slots.getD i defaultSlot).UpdatedAt
    · rw [if_pos hj] at hstep
      rcases ih j with ⟨hmem, hle, hall⟩
      rw [hstep]
      refine ⟨?_, le_trans hle (le_of_lt hj), ?_⟩
      · rcases List.mem_cons.1 hmem with he | hm
        · rw [he]
          exact List.mem_cons_of_mem i (List.mem_cons_self j rest)
        · exact List.mem_cons_of_mem i (List.mem_cons_of_mem j hm)
      · intro k hk
        rcases List.mem_cons.1 hk with he | hm
        · rw [he]; exact hle
        · exact hall k hm
    · rw [if_neg hj] at hstep
      rcases ih i with ⟨hmem, hle, hall⟩
      rw [hstep]
      refine ⟨?_, hle, ?_⟩
      · rcases List.mem_cons.1 hmem with he | hm
        · rw [he]; exact List.mem_cons_self i (j :: rest)
        · exact List.mem_cons_of_mem i (List.mem_cons_of_mem j hm)
      · intro k hk
        rcases List.mem_cons.1 hk with he | hm
        · rw [he]
          exact le_trans hle (not_lt.1 hj)
        · exact hall k hm

theorem findOldestUserSlot_spec (m : ActiveTaskSlotManager) (uid : Int)
    (hne : lookupIdx m.userSlotIdx uid ≠ []) :
    ∃ oldest, findOldestUserSlot m uid = some oldest ∧
      oldest ∈ lookupIdx m.userSlotIdx uid ∧
      ∀ j ∈ lookupIdx m.userSlotIdx uid,
        (m.slots.getD oldest defaultSlot).UpdatedAt
          ≤ (m.slots.getD j defaultSlot).UpdatedAt := by
  cases hl : lookupIdx m.userSlotIdx uid with
  | nil => exact absurd hl hne
  | cons i rest =>
    rcases oldestFold_spec m.slots rest i with ⟨hmem, hle, hall⟩
    refine ⟨oldestFold m.slots i rest, ?_, hmem, ?_⟩
    · unfold findOldestUserSlot
      rw [hl]
    · intro j hj
      rcases List.mem_cons.1 hj with he | hm
      · rw [he]; exact hle
      · exact hall j hm

/-! ### The master step theorem: `recordTaskCore` preserves the invariants -/

theorem recordTaskCore_match_eq (m : ActiveTaskSlotManager) (uid : Int)
    (uname : String) (now : Int) (hash : Nat) {idx : Nat}
    (hfind : (lookupIdx m.userSlotIdx uid).find? (matchPred m hash) = some idx) :
    recordTaskCore m uid uname now hash =
      ⟨m.slots.set idx
         ⟨(m.slots.getD idx defaultSlot).UserID, uname, now, hash⟩,
       m.userSlotIdx, moveToLRUEnd m.lruOrder idx⟩ := by
  simp only [recordTaskCore, hfind]

theorem recordTaskCore_usercap_eq (m : ActiveTaskSlotManager) (uid : Int)
    (uname : String) (now : Int) (hash : Nat) {oldest : Nat}
    (hfind : (lookupIdx m.userSlotIdx uid).find? (matchPred m hash) = none)
    (h50 : MaxUserSlots ≤ (lookupIdx m.userSlotIdx uid).length)
    (hold : findOldestUserSlot m uid = some oldest) :
    recordTaskCore m uid uname now hash = reuseSlot m oldest uid uname now hash := by
  have hif : (if MaxUserSlots ≤ (lookupIdx m.userSlotIdx uid).length
      then findOldestUserSlot m uid else none) = some oldest := by
    rw [if_pos h50, hold]
  simp only [recordTaskCore, hfind, hif]

theorem recordTaskCore_global_eq (m : ActiveTaskSlotManager) (uid : Int)
    (uname : String) (now : Int) (hash : Nat)
    (hfind : (lookupIdx m.userSlotIdx uid).find? (matchPred m hash) = none)
    (h50 : ¬ MaxUserSlots ≤ (lookupIdx m.userSlotIdx uid).length)
    (hg : MaxGlobalSlots ≤ m.slots.length ∧ m.lruOrder ≠ []) :
    recordTaskCore m uid uname now hash
      = reuseSlot m (m.lruOrder.headD 0) uid uname now hash := by
  have hif : (if MaxUserSlots ≤ (lookupIdx m.userSlotIdx uid).length
      then findOldestUserSlot m uid else none) = none := if_neg h50
  simp only [recordTaskCore, hfind, hif]
  rw [if_pos hg]

theorem recordTaskCore_alloc_eq (m : ActiveTaskSlotManager) (uid : Int)
    (uname : String) (now : Int) (hash : Nat)
    (hfind : (lookupIdx m.userSlotIdx uid).find? (matchPred m hash) = none)
    (h50 : ¬ MaxUserSlots ≤ (lookupIdx m.userSlotIdx uid).length)
    (hg : ¬ (MaxGlobalSlots ≤ m.slots.length ∧ m.lruOrder ≠ [])) :
    recordTaskCore m uid uname now hash
      = ⟨m.slots ++ [⟨uid, uname, now, hash⟩],
         setIdx m.userSlotIdx uid
           (lookupIdx m.userSlotIdx uid ++ [m.slots.length]),
         m.lruOrder ++ [m.slots.length]⟩ := by
  have hif : (if MaxUserSlots ≤ (lookupIdx m.userSlotIdx uid).length
      then findOldestUserSlot m uid else none) = none := if_neg h50
  simp only [recordTaskCore, hfind, hif]
  rw [if_neg hg]

theorem recordTaskCore_preserves (m : ActiveTaskSlotManager) (uid : Int)
    (uname : String) (now : Int) (hash : Nat) (hWF : WFs m) :
    WFs (recordTaskCore m uid uname now hash) ∧
    (SortedLRU m → BoundedTS m now →
      SortedLRU (recordTaskCore m uid uname now hash)
      ∧ BoundedTS (recordTaskCore m uid uname now hash) now) := by
  cases hfind : (lookupIdx m.userSlotIdx uid).find? (matchPred m hash) with
  | some idx =>
    rw [recordTaskCore_match_eq m uid uname now hash hfind]
    have hmem : idx ∈ lookupIdx m.userSlotIdx uid :=
      List.mem_of_find?_eq_some hfind
    have hio := wfs_lookup_owned hWF uid idx hmem
    refine ⟨WFs_set_move m idx _ hWF hio.1 rfl, fun hsort hts => ⟨?_, ?_⟩⟩
    · exact sorted_set_move m.slots m.lruOrder idx
        ⟨(m.slots.getD idx defaultSlot).UserID, uname, now, hash⟩ hio.1
        (wfs_lruNodup hWF) (wfs_lruLt hWF) hsort hts
    · exact bounded_set m.slots idx
        ⟨(m.slots.getD idx defaultSlot).UserID, uname, now, hash⟩ now hts
        (le_refl now)
  | none =>
    by_cases h50 : MaxUserSlots ≤ (lookupIdx m.userSlotIdx uid).length
    · have hne : lookupIdx m.userSlotIdx uid ≠ [] := by
        intro he
        rw [he] at h50
        simp [MaxUserSlots] at h50
      rcases findOldestUserSlot_spec m uid hne with ⟨oldest, hold, holdm, _⟩
      rw [recordTaskCore_usercap_eq m uid uname now hash hfind h50 hold]
      have hio := wfs_lookup_owned hWF uid oldest holdm
      rw [reuseSlot_eq_same m oldest uid uname now hash hio.2]
      refine ⟨WFs_set_move m oldest ⟨uid, uname, now, hash⟩ hWF hio.1 hio.2.symm,
        fun hsort hts => ⟨?_, ?_⟩⟩
      · exact sorted_set_move m.slots m.lruOrder oldest ⟨uid, uname, now, hash⟩
          hio.1 (wfs_lruNodup hWF) (wfs_lruLt hWF) hsort hts
      · exact bounded_set m.slots oldest ⟨uid, uname, now, hash⟩ now hts
          (le_refl now)
    · have hcap : (lookupIdx m.userSlotIdx uid).length < MaxUserSlots :=
        not_le.1 h50
      by_cases hglob : MaxGlobalSlots ≤ m.slots.length ∧ m.lruOrder ≠ []
      · rw [recordTaskCore_global_eq m uid uname now hash hfind h50 hglob]
        obtain ⟨hg, hlne⟩ := hglob
        have hheadmem : m.lruOrder.headD 0 ∈ m.lruOrder := by
          cases hl : m.lruOrder with
          | nil => exact absurd hl hlne
          | cons a t => simp
        have hhead : m.lruOrder.headD 0 < m.slots.length :=
          wfs_lruLt hWF _ hheadmem
        by_cases howner :
            (m.slots.getD (m.lruOrder.headD 0) defaultSlot).UserID = uid
        · rw [reuseSlot_eq_same m _ uid uname now hash howner]
          refine ⟨WFs_set_move m _ ⟨uid, uname, now, hash⟩ hWF hhead howner.symm,
            fun hsort hts => ⟨?_, ?_⟩⟩
          · exact sorted_set_move m.slots m.lruOrder _ ⟨uid, uname, now, hash⟩
              hhead (wfs_lruNodup hWF) (wfs_lruLt hWF) hsort hts
          · exact bounded_set m.slots _ ⟨uid, uname, now, hash⟩ now hts
              (le_refl now)
        · refine ⟨WFs_reuse_diff m _ uid uname now hash hWF hhead howner hcap,
            fun hsort hts => ⟨?_, ?_⟩⟩
          · rw [reuseSlot_eq_diff m _ uid uname now hash howner]
            exact sorted_set_move m.slots m.lruOrder _ ⟨uid, uname, now, hash⟩
              hhead (wfs_lruNodup hWF) (wfs_lruLt hWF) hsort hts
          · rw [reuseSlot_eq_diff m _ uid uname now hash howner]
            exact bounded_set m.slots _ ⟨uid, uname, now, hash⟩ now hts
              (le_refl now)
      · rw [recordTaskCore_alloc_eq m uid uname now hash hfind h50 hglob]
        have hlt : m.slots.length < MaxGlobalSlots := by
          rcases not_and_or.1 hglob with hn | hl
          · exact lt_of_not_le hn
          · rw [not_not] at hl
            by_contra hge
            have h0 : 0 < m.slots.length := by
              simp [MaxGlobalSlots] at hge
              omega
            have hmem0 := wfs_lruComplete hWF 0 h0
            rw [hl] at hmem0
            cases hmem0
        refine ⟨WFs_alloc m uid uname now hash hWF hcap hlt,
          fun hsort hts => ⟨?_, ?_⟩⟩
        · exact sorted_alloc m.slots m.lruOrder ⟨uid, uname, now, hash⟩
            (wfs_lruLt hWF) hsort hts
        · exact bounded_append m.slots ⟨uid, uname, now, hash⟩ now hts
            (le_refl now)

theorem WFs_empty : WFs emptyManager := by decide

theorem RecordTask_eq_core (th : List Char → Nat) (m : ActiveTaskSlotManager)
    (uid : Int) (uname : String) (now : Int) (data : List Char) :
    RecordTask th m uid uname now data
      = recordTaskCore m uid uname now (simhash64 th data) := rfl

theorem runTraceFrom_WFs (th : List Char → Nat) (trace : List RecordCall)
    (m : ActiveTaskSlotManager) (hWF : WFs m) :
    WFs (runTraceFrom th m trace) := by
  induction trace generalizing m with
  | nil => exact hWF
  | cons c cs ih =>
    exact ih _ (recordTaskCore_preserves m c.userID c.username c.now
      (simhash64 th c.data) hWF).1

theorem runTrace_WFs (th : List Char → Nat) (trace : List RecordCall) :
    WFs (runTrace th trace) :=
  runTraceFrom_WFs th trace emptyManager WFs_empty

theorem runTraceFrom_sorted (th : List Char → Nat) (trace : List RecordCall)
    (m : ActiveTaskSlotManager) (b : Int) (hWF : WFs m)
    (hsort : SortedLRU m) (hts : BoundedTS m b)
    (hchain : List.Chain (· ≤ ·) b (trace.map RecordCall.now)) :
    SortedLRU (runTraceFrom th m trace)
    ∧ BoundedTS (runTraceFrom th m trace) (lastNow b trace) := by
  induction trace generalizing m b with
  | nil => exact ⟨hsort, hts⟩
  | cons c cs ih =>
    rw [List.map_cons, List.chain_cons] at hchain
    have hts' : BoundedTS m c.now := fun s hs => le_trans (hts s hs) hchain.1
    have hstep := recordTaskCore_preserves m c.userID c.username c.now
      (simhash64 th c.data) hWF
    have hps := hstep.2 hsort hts'
    exact ih _ c.now hstep.1 hps.1 hps.2 hchain.2

/-! ### The filled store: closed form of `runTrace` over `fillTrace` -/

theorem pairwise_of_forall_rel {α : Type} {R : α → α → Prop} (h : ∀ a b, R a b) :
    ∀ l : List α, l.Pairwise R
  | [] => List.Pairwise.nil
  | a :: l => List.Pairwise.cons (fun b _ => h a b) (pairwise_of_forall_rel h l)

theorem getD_map_range (f : Nat → TaskSlot) (n i : Nat) (hi : i < n)
    (d : TaskSlot) : ((List.range n).map f).getD i d = f i := by
  rw [List.getD_eq_getElem?_getD, List.getElem?_map, List.getElem?_range hi]
  rfl

theorem lookupIdx_map_range (f : Nat → Int × List Nat) (n k : Nat) (hk : k < n)
    (hinj : ∀ j < n, (f j).1 = (f k).1 → j = k) :
    lookupIdx ((List.range n).map f) (f k).1 = (f k).2 := by
  induction n generalizing f k with
  | zero => omega
  | succ n ih =>
    rw [List.range_succ_eq_map, List.map_cons, List.map_map]
    by_cases hk0 : k = 0
    · subst hk0
      exact lookupIdx_cons_pos rfl
    · have hne : (f 0).1 ≠ (f k).1 := fun e => hk0 ((hinj 0 (by omega) e).symm)
      rw [lookupIdx_cons_neg hne]
      obtain ⟨k', rfl⟩ : ∃ k', k = k' + 1 := ⟨k - 1, by omega⟩
      have hres := ih (fun j => f (j + 1)) k' (by omega)
        (fun j hj e => by
          have := hinj (j + 1) (by omega) e
          omega)
      simpa [Function.comp] using hres

theorem lookupIdx_map_range_none (f : Nat → Int × List Nat) (n : Nat) (u : Int)
    (h : ∀ j < n, (f j).1 ≠ u) :
    lookupIdx ((List.range n).map f) u = [] := by
  refine lookupIdx_eq_nil_of_not_mem (fun p hp => ?_)
  rcases List.mem_map.1 hp with ⟨j, hj, rfl⟩
  exact h j (List.mem_range.1 hj)

theorem fillMgr_length (th : List Char → Nat) (n : Nat) :
    (fillMgr th n).slots.length = n := by
  show ((List.range n).map
    (fun (i : Nat) => (⟨(i : Int) + 1, "u", 0, simhash64 th ['a']⟩ : TaskSlot))).length = n
  rw [List.length_map, List.length_range]

theorem fillMgr_lookup_lt (th : List Char → Nat) (n k : Nat) (hk : k < n) :
    lookupIdx (fillMgr th n).userSlotIdx ((k : Int) + 1) = [k] := by
  have hres := lookupIdx_map_range
    (fun (i : Nat) => (((i : Int) + 1 : Int), ([i] : List Nat))) n k hk
    (fun j hj e => by
      have he : (j : Int) + 1 = (k : Int) + 1 := e
      omega)
  exact hres

theorem fillMgr_lookup_none (th : List Char → Nat) (n : Nat) (u : Int)
    (hu : ∀ k, k < n → ((k : Int) + 1) ≠ u) :
    lookupIdx (fillMgr th n).userSlotIdx u = [] :=
  lookupIdx_map_range_none _ n u (fun j hj => hu j hj)

theorem fillMgr_getD (th : List Char → Nat) (n i : Nat) (hi : i < n) :
    (fillMgr th n).slots.getD i defaultSlot
      = ⟨(i : Int) + 1, "u", 0, simhash64 th ['a']⟩ := by
  show ((List.range n).map
    (fun (j : Nat) => (⟨(j : Int) + 1, "u", 0, simhash64 th ['a']⟩ : TaskSlot))).getD
      i defaultSlot = _
  exact getD_map_range _ n i hi defaultSlot

theorem fillMgr_WFs (th : List Char → Nat) (n : Nat) (hn : n ≤ MaxGlobalSlots) :
    WFs (fillMgr th n) := by
  refine ⟨?_, ?_, ?_, ?_, ?_, ?_, ?_⟩
  · intro p hp
    rcases List.mem_map.1 hp with ⟨i, hi, rfl⟩
    have hin := List.mem_range.1 hi
    refine ⟨?_, by simp, by simp, by simp [MaxUserSlots]⟩
    intro j hj
    rw [List.mem_singleton] at hj
    subst hj
    rw [fillMgr_length, fillMgr_getD th n j hin]
    exact ⟨hin, rfl⟩
  · have hkeys : ((fillMgr th n).userSlotIdx.map Prod.fst)
        = (List.range n).map (fun (i : Nat) => (i : Int) + 1) := by
      show (((List.range n).map
        (fun (i : Nat) => (((i : Int) + 1 : Int), ([i] : List Nat)))).map
          Prod.fst) = _
      rw [List.map_map]
      rfl
    rw [hkeys]
    refine (List.nodup_range n).map ?_
    intro a b hab
    have hab2 : (a : Int) + 1 = (b : Int) + 1 := hab
    omega
  · intro i hi
    rw [fillMgr_length] at hi
    rw [fillMgr_getD th n i hi, fillMgr_lookup_lt th n i hi]
    simp
  · exact List.nodup_range n
  · intro i hi
    rw [fillMgr_length]
    exact List.mem_range.1 hi
  · intro i hi
    rw [fillMgr_length] at hi
    exact List.mem_range.2 hi
  · rw [fillMgr_length]
    exact hn

theorem fillMgr_sorted (th : List Char → Nat) (n : Nat) :
    SortedLRU (fillMgr th n) := by
  unfold SortedLRU
  have hts : ∀ i, ((fillMgr th n).slots.getD i defaultSlot).UpdatedAt = 0 := by
    intro i
    by_cases hi : i < n
    · rw [fillMgr_getD th n i hi]
    · rw [List.getD_eq_getElem?_getD, List.getElem?_eq_none]
      · rfl
      · rw [fillMgr_length]
        omega
  exact pairwise_of_forall_rel (fun a b => by rw [hts a, hts b]) _

theorem setIdx_absent (l : List (Int × List Nat)) (u : Int) (v : List Nat)
    (h : ¬ l.any (fun p => p.1 == u)) : setIdx l u v = l ++ [(u, v)] :=
  if_neg h

theorem runTraceFrom_append (th : List Char → Nat) (m : ActiveTaskSlotManager)
    (t1 t2 : List RecordCall) :
    runTraceFrom th m (t1 ++ t2) = runTraceFrom th (runTraceFrom th m t1) t2 := by
  induction t1 generalizing m with
  | nil => rfl
  | cons c cs ih =>
    rw [List.cons_append]
    exact ih _

theorem fill_step (th : List Char → Nat) (n : Nat) (hn : n < MaxGlobalSlots) :
    RecordTask th (fillMgr th n) ((n : Int) + 1) "u" 0 ['a']
      = fillMgr th (n + 1) := by
  have hl : lookupIdx (fillMgr th n).userSlotIdx ((n : Int) + 1) = [] := by
    refine fillMgr_lookup_none th n _ (fun k hk he => ?_)
    have : (k : Int) = (n : Int) := by omega
    have : k = n := by exact_mod_cast this
    omega
  rw [RecordTask_eq_core]
  rw [recordTaskCore_alloc_eq _ _ _ _ _ (by rw [hl]; rfl)
    (by rw [hl]; simp [MaxUserSlots])
    (by
      rw [fillMgr_length]
      intro hc
      exact absurd hc.1 (by omega))]
  rw [hl]
  have hany : ¬ (fillMgr th n).userSlotIdx.any (fun p => p.1 == ((n : Int) + 1)) := by
    intro hc
    rcases List.any_eq_true.1 hc with ⟨p, hp, he⟩
    rcases List.mem_map.1 hp with ⟨j, hj, rfl⟩
    have hjn := List.mem_range.1 hj
    have : (j : Int) + 1 = (n : Int) + 1 := by simpa using he
    have : j = n := by omega
    omega
  rw [setIdx_absent _ _ _ hany, fillMgr_length]
  unfold fillMgr
  rw [List.range_succ, List.map_append, List.map_append]
  simp

theorem fillTrace_runs (th : List Char → Nat) (n : Nat)
    (hn : n ≤ MaxGlobalSlots) : runTrace th (fillTrace n) = fillMgr th n := by
  induction n with
  | zero => rfl
  | succ k ih =>
    have hk : k ≤ MaxGlobalSlots := by omega
    have hstep : fillTrace (k + 1) = fillTrace k ++ [fillCall k] := by
      unfold fillTrace
      rw [List.range_succ, List.map_append]
      rfl
    rw [hstep]
    unfold runTrace at ih ⊢
    rw [runTraceFrom_append, ih hk]
    show RecordTask th (fillMgr th k) ((k : Int) + 1) "u" 0 ['a'] = fillMgr th (k + 1)
    exact fill_step th k (by omega)

/-! ### SimHash: bit characterisation, distance, and multiset dependence -/

theorem foldl_or_testBit (P : Nat → Prop) [DecidablePred P] (l : List Nat)
    (acc j : Nat) :
    ((l.foldl (fun out i => if P i then out ||| (1 <<< i) else out) acc).testBit j
        = true)
      ↔ (acc.testBit j = true ∨ (j ∈ l ∧ P j)) := by
  induction l generalizing acc with
  | nil => simp
  | cons i l ih =>
    rw [List.foldl_cons]
    by_cases hP : P i
    · rw [if_pos hP, ih]
      rw [Nat.testBit_or, Nat.one_shiftLeft, Nat.testBit_two_pow]
      simp only [Bool.or_eq_true, decide_eq_true_eq, List.mem_cons]
      constructor
      · rintro ((h | he) | hm)
        · exact Or.inl h
        · exact Or.inr ⟨Or.inl he.symm, he ▸ hP⟩
        · exact Or.inr ⟨Or.inr hm.1, hm.2⟩
      · rintro (h | ⟨(he | hm), hpj⟩)
        · exact Or.inl (Or.inl h)
        · exact Or.inl (Or.inr he.symm)
        · exact Or.inr ⟨hm, hpj⟩
    · rw [if_neg hP, ih]
      simp only [List.mem_cons]
      constructor
      · rintro (h | hm)
        · exact Or.inl h
        · exact Or.inr ⟨Or.inr hm.1, hm.2⟩
      · rintro (h | ⟨(he | hm), hpj⟩)
        · exact Or.inl h
        · exact absurd (he ▸ hpj) hP
        · exact Or.inr ⟨hm, hpj⟩

theorem simhash64_empty (th : List Char → Nat) (data : List Char)
    (he : fields data = []) : simhash64 th data = 0 := by
  unfold simhash64
  simp [he]

theorem simhash64_testBit (th : List Char → Nat) (data : List Char)
    (hne : fields data ≠ []) (j : Nat) :
    ((simhash64 th data).testBit j = true)
      ↔ (j < 64 ∧ 0 ≤ vote th (fields data) j) := by
  unfold simhash64
  simp only [if_neg hne]
  rw [foldl_or_testBit (fun i => 0 ≤ vote th (fields data) i) (List.range 64) 0 j]
  simp [List.mem_range]

theorem hamming64_le_64 (a b : Nat) : hamming64 a b ≤ 64 := by
  unfold hamming64
  calc ((List.range 64).filter (fun i => (a ^^^ b).testBit i)).length
      ≤ (List.range 64).length := List.length_filter_le _ _
    _ = 64 := List.length_range 64

theorem hamming64_self (a : Nat) : hamming64 a a = 0 := by
  unfold hamming64
  simp

theorem vote_perm (th : List Char → Nat) {t1 t2 : List (List Char)}
    (hp : t1.Perm t2) (i : Nat) : vote th t1 i = vote th t2 i := by
  unfold vote
  refine hp.foldl_eq' ?_ 0
  intro x hx y hy z
  by_cases hxb : (th x).testBit i <;> by_cases hyb : (th y).testBit i <;>
    simp [hxb, hyb]

theorem simhash64_perm (th : List Char → Nat) (x y : List Char)
    (hp : (fields x).Perm (fields y)) : simhash64 th x = simhash64 th y := by
  by_cases he : fields x = []
  · have hey : fields y = [] := ((he ▸ hp : ([] : List (List Char)).Perm _).symm).eq_nil
    rw [simhash64_empty th x he, simhash64_empty th y hey]
  · have hey : fields y ≠ [] := fun h => he (h ▸ hp : _).eq_nil
    have hv : ∀ i, vote th (fields x) i = vote th (fields y) i := vote_perm th hp
    unfold simhash64
    simp only [if_neg he, if_neg hey]
    have hfun : (fun (out : Nat) (i : Nat) =>
        if 0 ≤ vote th (fields x) i then out ||| (1 <<< i) else out)
      = (fun (out : Nat) (i : Nat) =>
        if 0 ≤ vote th (fields y) i then out ||| (1 <<< i) else out) := by
      funext out i
      rw [hv i]
    rw [hfun]

/-! ### The rank sort: permutation and descending order -/

theorem rankSelectMax_perm (x : UserActiveTaskCount)
    (l : List UserActiveTaskCount) :
    ((rankSelectMax x l).1 :: (rankSelectMax x l).2).Perm (x :: l) := by
  induction l generalizing x with
  | nil => exact List.Perm.refl _
  | cons y ys ih =>
    simp only [rankSelectMax]
    by_cases h : x.ActiveSlots < y.ActiveSlots
    · rw [if_pos h]
      exact (List.Perm.swap x (rankSelectMax y ys).1 (rankSelectMax y ys).2).trans
        ((ih y).cons x)
    · rw [if_neg h]
      exact ((List.Perm.swap y (rankSelectMax x ys).1 (rankSelectMax x ys).2).trans
        ((ih x).cons y)).trans (List.Perm.swap x y ys)

theorem rankSelectMax_max (x : UserActiveTaskCount)
    (l : List UserActiveTaskCount) :
    ∀ z ∈ x :: l, z.ActiveSlots ≤ (rankSelectMax x l).1.ActiveSlots := by
  induction l generalizing x with
  | nil =>
    intro z hz
    rw [List.mem_singleton] at hz
    rw [hz]
    exact le_refl _
  | cons y ys ih =>
    intro z hz
    simp only [rankSelectMax]
    by_cases h : x.ActiveSlots < y.ActiveSlots
    · rw [if_pos h]
      rcases List.mem_cons.1 hz with he | hm
      · rw [he]
        exact le_trans (le_of_lt h) (ih y y (List.mem_cons_self y ys))
      · exact ih y z hm
    · rw [if_neg h]
      rcases List.mem_cons.1 hz with he | hm
      · rw [he]
        exact ih x x (List.mem_cons_self x ys)
      · rcases List.mem_cons.1 hm with he2 | hm2
        · rw [he2]
          exact le_trans (not_lt.1 h) (ih x x (List.mem_cons_self x ys))
        · exact ih x z (List.mem_cons_of_mem x hm2)

theorem rankSortLoop_perm_aux : ∀ (n : Nat) (l : List UserActiveTaskCount),
    l.length ≤ n → (rankSortLoop l).Perm l := by
  intro n
  induction n with
  | zero =>
    intro l hl
    cases l with
    | nil => rw [rankSortLoop]
    | cons x xs => simp at hl
  | succ n ih =>
    intro l hl
    cases l with
    | nil => rw [rankSortLoop]
    | cons x xs =>
      rw [rankSortLoop]
      have hlen : (rankSelectMax x xs).2.length ≤ n := by
        rw [rankSelectMax_length]
        simpa using hl
      exact ((ih _ hlen).cons _).trans (rankSelectMax_perm x xs)

theorem rankSortLoop_perm (l : List UserActiveTaskCount) :
    (rankSortLoop l).Perm l :=
  rankSortLoop_perm_aux l.length l (le_refl _)

theorem rankSortLoop_sorted_aux : ∀ (n : Nat) (l : List UserActiveTaskCount),
    l.length ≤ n →
    (rankSortLoop l).Pairwise (fun a b => b.ActiveSlots ≤ a.ActiveSlots) := by
  intro n
  induction n with
  | zero =>
    intro l hl
    cases l with
    | nil => rw [rankSortLoop]; exact List.Pairwise.nil
    | cons x xs => simp at hl
  | succ n ih =>
    intro l hl
    cases l with
    | nil => rw [rankSortLoop]; exact List.Pairwise.nil
    | cons x xs =>
      rw [rankSortLoop]
      have hlen : (rankSelectMax x xs).2.length ≤ n := by
        rw [rankSelectMax_length]
        simpa using hl
      refine List.Pairwise.cons ?_ (ih _ hlen)
      intro z hz
      have hz2 : z ∈ (rankSelectMax x xs).2 :=
        (rankSortLoop_perm _).mem_iff.1 hz
      have hz3 : z ∈ (rankSelectMax x xs).1 :: (rankSelectMax x xs).2 :=
        List.mem_cons_of_mem _ hz2
      have hz4 : z ∈ x :: xs := (rankSelectMax_perm x xs).mem_iff.1 hz3
      exact rankSelectMax_max x xs z hz4

theorem rankSortLoop_sorted (l : List UserActiveTaskCount) :
    (rankSortLoop l).Pairwise (fun a b => b.ActiveSlots ≤ a.ActiveSlots) :=
  rankSortLoop_sorted_aux l.length l (le_refl _)

/-! ### The tally loop of `GetActiveTaskRank` -/

theorem activeSlotCount_append (P : List TaskSlot) (s : TaskSlot)
    (cutoff : Int) (u : Int) :
    activeSlotCount (P ++ [s]) cutoff u
      = activeSlotCount P cutoff u
        + (if s.UserID = u ∧ cutoff ≤ s.UpdatedAt then 1 else 0) := by
  unfold activeSlotCount
  rw [List.filter_append, List.length_append]
  congr 1
  by_cases h : s.UserID = u ∧ cutoff ≤ s.UpdatedAt
  · rw [if_pos h]
    have hb : (s.UserID == u && decide (cutoff ≤ s.UpdatedAt)) = true := by
      simp [h.1, h.2]
    simp [List.filter_singleton, hb]
  · rw [if_neg h]
    have hb : (s.UserID == u && decide (cutoff ≤ s.UpdatedAt)) = false := by
      rcases not_and_or.1 h with h1 | h2
      · simp [h1]
      · simp [h2]
    simp [List.filter_singleton, hb]

theorem firstActiveSlot_append_some (P : List TaskSlot) (s : TaskSlot)
    (cutoff : Int) (u : Int) (s0 : TaskSlot)
    (h : firstActiveSlot P cutoff u = some s0) :
    firstActiveSlot (P ++ [s]) cutoff u = some s0 := by
  unfold firstActiveSlot at h ⊢
  rw [List.find?_append, h]
  rfl

theorem firstActiveSlot_append_none (P : List TaskSlot) (s : TaskSlot)
    (cutoff : Int) (u : Int)
    (h : firstActiveSlot P cutoff u = none) :
    firstActiveSlot (P ++ [s]) cutoff u
      = (if s.UserID == u && decide (cutoff ≤ s.UpdatedAt) then some s
         else none) := by
  unfold firstActiveSlot at h ⊢
  rw [List.find?_append, h]
  by_cases hb : (s.UserID == u && decide (cutoff ≤ s.UpdatedAt)) = true
  · have hfind : List.find?
        (fun t => t.UserID == u && decide (cutoff ≤ t.UpdatedAt)) [s] = some s :=
      List.find?_cons_of_pos _ hb
    rw [hfind, if_pos hb]
    rfl
  · have hfind : List.find?
        (fun t => t.UserID == u && decide (cutoff ≤ t.UpdatedAt)) [s] = none :=
      List.find?_cons_of_neg _ hb
    rw [hfind, if_neg hb]
    rfl

theorem firstActiveSlot_eq_none (P : List TaskSlot) (cutoff : Int) (u : Int)
    (h : activeSlotCount P cutoff u = 0) :
    firstActiveSlot P cutoff u = none := by
  unfold firstActiveSlot
  rw [List.find?_eq_none]
  intro s hs hp
  unfold activeSlotCount at h
  rw [List.length_eq_zero] at h
  have hmem : s ∈ P.filter (fun s => s.UserID == u && decide (cutoff ≤ s.UpdatedAt)) :=
    List.mem_filter.2 ⟨hs, hp⟩
  rw [h] at hmem
  cases hmem

theorem bumpCounts_ok (cutoff : Int) (P : List TaskSlot)
    (acc : List UserActiveTaskCount) (s : TaskSlot)
    (h : CountsOK cutoff P acc) :
    CountsOK cutoff (P ++ [s]) (bumpCounts cutoff acc s) := by
  obtain ⟨hA, hB, hC, hD⟩ := h
  unfold bumpCounts
  by_cases hact : cutoff ≤ s.UpdatedAt
  case neg =>
    rw [if_neg hact]
    have hcount : ∀ u, activeSlotCount (P ++ [s]) cutoff u
        = activeSlotCount P cutoff u := by
      intro u
      rw [activeSlotCount_append, if_neg (fun hc => hact hc.2)]
      omega
    refine ⟨hA, ?_, ?_, ?_⟩
    · intro e he
      rw [hcount]
      exact hB e he
    · intro u
      rw [hcount]
      exact hC u
    · intro e he
      rcases hD e he with ⟨s0, hs0, hu⟩
      exact ⟨s0, firstActiveSlot_append_some P s cutoff _ s0 hs0, hu⟩
  case pos =>
    rw [if_pos hact]
    by_cases hpres : acc.any (fun e => e.UserID == s.UserID)
    · rw [if_pos hpres]
      have hgid : ∀ e : UserActiveTaskCount,
          ((if e.UserID == s.UserID
            then { e with ActiveSlots := e.ActiveSlots + 1 } else e) :
              UserActiveTaskCount).UserID = e.UserID := by
        intro e
        by_cases he : (e.UserID == s.UserID) = true
        · rw [if_pos he]
        · rw [if_neg he]
      have hgname : ∀ e : UserActiveTaskCount,
          ((if e.UserID == s.UserID
            then { e with ActiveSlots := e.ActiveSlots + 1 } else e) :
              UserActiveTaskCount).Username = e.Username := by
        intro e
        by_cases he : (e.UserID == s.UserID) = true
        · rw [if_pos he]
        · rw [if_neg he]
      have hkeys : ((acc.map (fun e =>
          if e.UserID == s.UserID
          then { e with ActiveSlots := e.ActiveSlots + 1 } else e)).map
            (fun e => e.UserID)) = acc.map (fun e => e.UserID) := by
        rw [List.map_map]
        exact List.map_congr_left (fun e _ => hgid e)
      refine ⟨?_, ?_, ?_, ?_⟩
      · rw [hkeys]
        exact hA
      · intro e' he'
        rcases List.mem_map.1 he' with ⟨e, he, rfl⟩
        rw [activeSlotCount_append, hgid e]
        by_cases hbeq : (e.UserID == s.UserID) = true
        · have he0 : e.UserID = s.UserID := by simpa using hbeq
          have hcond : s.UserID = e.UserID ∧ cutoff ≤ s.UpdatedAt :=
            ⟨he0.symm, hact⟩
          rw [if_pos hcond, if_pos hbeq]
          have hbv := hB e he
          show e.ActiveSlots + 1 = activeSlotCount P cutoff e.UserID + 1
          omega
        · have hcond : ¬ (s.UserID = e.UserID ∧ cutoff ≤ s.UpdatedAt) := by
            intro hc
            exact hbeq (by simpa using hc.1.symm)
          rw [if_neg hcond, if_neg hbeq]
          have hbv := hB e he
          omega
      · intro u
        rw [activeSlotCount_append]
        by_cases hu : u = s.UserID
        · have hcond : s.UserID = u ∧ cutoff ≤ s.UpdatedAt := ⟨hu.symm, hact⟩
          rw [if_pos hcond]
          constructor
          · intro _
            omega
          · intro _
            rcases List.any_eq_true.1 hpres with ⟨e, he, heq⟩
            refine ⟨(if e.UserID == s.UserID
                then { e with ActiveSlots := e.ActiveSlots + 1 } else e),
              List.mem_map_of_mem _ he, ?_⟩
            rw [hgid e, hu]
            simpa using heq
        · have hcond : ¬ (s.UserID = u ∧ cutoff ≤ s.UpdatedAt) :=
            fun hc => hu hc.1.symm
          rw [if_neg hcond, Nat.add_zero, ← hC u]
          constructor
          · rintro ⟨e', he', heq⟩
            rcases List.mem_map.1 he' with ⟨e, he, rfl⟩
            exact ⟨e, he, by rw [← hgid e]; exact heq⟩
          · rintro ⟨e, he, heq⟩
            exact ⟨_, List.mem_map_of_mem _ he, by rw [hgid e]; exact heq⟩
      · intro e' he'
        rcases List.mem_map.1 he' with ⟨e, he, rfl⟩
        rcases hD e he with ⟨s0, hs0, hu⟩
        refine ⟨s0, ?_, ?_⟩
        · rw [hgid e]
          exact firstActiveSlot_append_some P s cutoff _ s0 hs0
        · rw [hgname e]
          exact hu
    · rw [if_neg hpres]
      have hnone : ∀ e ∈ acc, e.UserID ≠ s.UserID := by
        intro e he hc
        exact hpres (List.any_eq_true.2 ⟨e, he, by simpa using hc⟩)
      have hzero : activeSlotCount P cutoff s.UserID = 0 := by
        by_contra hz
        have hpos : 0 < activeSlotCount P cutoff s.UserID := by omega
        rcases (hC s.UserID).2 hpos with ⟨e, he, heq⟩
        exact hnone e he heq
      refine ⟨?_, ?_, ?_, ?_⟩
      · rw [List.map_append]
        refine List.Nodup.append hA (by simp) ?_
        intro a ha hb
        simp only [List.map_cons, List.map_nil, List.mem_singleton] at hb
        subst hb
        rcases List.mem_map.1 ha with ⟨e, he, heq⟩
        exact hnone e he heq
      · intro e he
        rcases List.mem_append.1 he with hm | hm
        · rw [activeSlotCount_append,
            if_neg (fun hc => hnone e hm hc.1.symm)]
          exact hB e hm
        · rw [List.mem_singleton] at hm
          subst hm
          rw [activeSlotCount_append]
          have hcond : s.UserID = (⟨s.UserID, s.Username, 1⟩ :
              UserActiveTaskCount).UserID ∧ cutoff ≤ s.UpdatedAt := ⟨rfl, hact⟩
          rw [if_pos hcond]
          show 1 = activeSlotCount P cutoff s.UserID + 1
          omega
      · intro u
        rw [activeSlotCount_append]
        by_cases hu : u = s.UserID
        · have hcond : s.UserID = u ∧ cutoff ≤ s.UpdatedAt := ⟨hu.symm, hact⟩
          rw [if_pos hcond]
          constructor
          · intro _
            omega
          · intro _
            exact ⟨⟨s.UserID, s.Username, 1⟩,
              List.mem_append_right _ (by simp), hu.symm⟩
        · have hcond : ¬ (s.UserID = u ∧ cutoff ≤ s.UpdatedAt) :=
            fun hc => hu hc.1.symm
          rw [if_neg hcond, Nat.add_zero, ← hC u]
          constructor
          · rintro ⟨e, he, heq⟩
            rcases List.mem_append.1 he with hm | hm
            · exact ⟨e, hm, heq⟩
            · rw [List.mem_singleton] at hm
              subst hm
              exact absurd (heq.symm :
                u = (⟨s.UserID, s.Username, 1⟩ : UserActiveTaskCount).UserID) hu
          · rintro ⟨e, he, heq⟩
            exact ⟨e, List.mem_append_left _ he, heq⟩
      · intro e he
        rcases List.mem_append.1 he with hm | hm
        · rcases hD e hm with ⟨s0, hs0, hu⟩
          exact ⟨s0, firstActiveSlot_append_some P s cutoff _ s0 hs0, hu⟩
        · rw [List.mem_singleton] at hm
          subst hm
          refine ⟨s, ?_, rfl⟩
          rw [firstActiveSlot_append_none P s cutoff _
            (firstActiveSlot_eq_none P cutoff _ hzero)]
          rw [if_pos (by simp [hact])]

theorem foldl_bump_ok (cutoff : Int) :
    ∀ (l P : List TaskSlot) (acc : List UserActiveTaskCount),
    CountsOK cutoff P acc →
    CountsOK cutoff (P ++ l) (l.foldl (bumpCounts cutoff) acc) := by
  intro l
  induction l with
  | nil =>
    intro P acc h
    simpa using h
  | cons s l ih =>
    intro P acc h
    rw [List.foldl_cons]
    have hres := ih (P ++ [s]) _ (bumpCounts_ok cutoff P acc s h)
    simpa [List.append_assoc] using hres

theorem collectCounts_ok (slots : List TaskSlot) (cutoff : Int) :
    CountsOK cutoff slots (collectCounts slots cutoff) := by
  have h0 : CountsOK cutoff [] [] := by
    refine ⟨by simp, by simp, ?_, by simp⟩
    intro u
    simp [activeSlotCount]
  have hres := foldl_bump_ok cutoff slots [] [] h0
  simpa [collectCounts] using hres

theorem CountsOK_perm (cutoff : Int) (P : List TaskSlot)
    {l1 l2 : List UserActiveTaskCount} (hp : l1.Perm l2)
    (h : CountsOK cutoff P l1) : CountsOK cutoff P l2 := by
  obtain ⟨hA, hB, hC, hD⟩ := h
  refine ⟨((hp.map _).nodup_iff).1 hA,
    fun e he => hB e (hp.mem_iff.2 he), ?_,
    fun e he => hD e (hp.mem_iff.2 he)⟩
  intro u
  rw [← hC u]
  constructor
  · rintro ⟨e, he, heq⟩
    exact ⟨e, hp.mem_iff.2 he, heq⟩
  · rintro ⟨e, he, heq⟩
    exact ⟨e, hp.mem_iff.1 he, heq⟩

theorem GetActiveTaskRank_spec (m : ActiveTaskSlotManager)
    (now windowSeconds : Int) (hw : 0 < windowSeconds) :
    CountsOK (now - windowSeconds) m.slots (GetActiveTaskRank m now windowSeconds)
    ∧ (GetActiveTaskRank m now windowSeconds).Pairwise
        (fun a b => b.ActiveSlots ≤ a.ActiveSlots) := by
  have hws : ¬ windowSeconds ≤ 0 := not_le.2 hw
  unfold GetActiveTaskRank
  simp only [if_neg hws]
  exact ⟨CountsOK_perm _ _ (rankSortLoop_perm _).symm
      (collectCounts_ok m.slots (now - windowSeconds)),
    rankSortLoop_sorted _⟩

/-! ### `GetStats`: the `active_users` field counts slot-owning users -/

theorem wfs_activeUsers (m : ActiveTaskSlotManager) (hWF : WFs m) :
    m.userSlotIdx.length = ((m.slots.map (fun s => s.UserID)).dedup).length := by
  have hkeys := wfs_keysNodup hWF
  have hmem : ∀ u : Int, u ∈ m.userSlotIdx.map Prod.fst
      ↔ u ∈ (m.slots.map (fun s => s.UserID)).dedup := by
    intro u
    rw [List.mem_dedup]
    constructor
    · intro humem
      rcases List.mem_map.1 humem with ⟨p, hp, rfl⟩
      have hent := wfs_entries hWF p hp
      rcases List.exists_mem_of_ne_nil p.2 hent.2.2.1 with ⟨i, hi⟩
      have hio := hent.1 i hi
      exact List.mem_map.2
        ⟨m.slots.getD i defaultSlot, getD_mem _ _ _ hio.1, hio.2⟩
    · intro humem
      rcases List.mem_map.1 humem with ⟨slot, hslot, rfl⟩
      rcases List.getElem_of_mem hslot with ⟨i, hlt, hget⟩
      have hgetD : m.slots.getD i defaultSlot = slot := by
        rw [List.getD_eq_getElem?_getD, List.getElem?_eq_getElem hlt, hget]
        rfl
      have hcomp := wfs_complete hWF i hlt
      rw [hgetD] at hcomp
      rcases lookupIdx_cases m.userSlotIdx slot.UserID with hnil | ⟨p, hp, hp1, heq⟩
      · rw [hnil] at hcomp
        cases hcomp
      · exact List.mem_map.2 ⟨p, hp, hp1⟩
  have hperm : (m.userSlotIdx.map Prod.fst).Perm
      ((m.slots.map (fun s => s.UserID)).dedup) :=
    (List.perm_ext_iff_of_nodup hkeys (List.nodup_dedup _)).2 hmem
  calc m.userSlotIdx.length = (m.userSlotIdx.map Prod.fst).length :=
        (List.length_map _ _).symm
    _ = _ := hperm.length_eq

/-! ### Final helpers for the claim theorems -/

theorem lru_head_min (m : ActiveTaskSlotManager) (hWF : WFs m)
    (hsort : SortedLRU m) {hd : Nat} {t : List Nat}
    (hlru : m.lruOrder = hd :: t) :
    ∀ s ∈ m.slots, (m.slots.getD hd defaultSlot).UpdatedAt ≤ s.UpdatedAt := by
  intro s hs
  rcases List.getElem_of_mem hs with ⟨i, hlt, hget⟩
  have hgetD : m.slots.getD i defaultSlot = s := by
    rw [List.getD_eq_getElem?_getD, List.getElem?_eq_getElem hlt, hget]
    rfl
  have hmem : i ∈ m.lruOrder := wfs_lruComplete hWF i hlt
  rw [hlru] at hmem
  have hpair : SortedLRU m := hsort
  unfold SortedLRU at hpair
  rw [hlru] at hpair
  rcases List.mem_cons.1 hmem with he | hm
  · rw [← hgetD, ← he]
  · have hrel := (List.pairwise_cons.1 hpair).1 i hm
    rw [hgetD] at hrel
    exact hrel

theorem reuseSlot_slots_length (m : ActiveTaskSlotManager) (idx : Nat)
    (uid : Int) (uname : String) (now : Int) (hash : Nat) :
    (reuseSlot m idx uid uname now hash).slots.length = m.slots.length := by
  simp [reuseSlot]

theorem notMem_keys_setIdx (l : List (Int × List Nat)) (u : Int)
    (v : List Nat) (u' : Int) (h : u' ∉ l.map Prod.fst) (hne : u' ≠ u) :
    u' ∉ (setIdx l u v).map Prod.fst := by
  intro hc
  rcases List.mem_map.1 hc with ⟨p, hp, heq⟩
  rcases mem_setIdx _ _ _ _ hp with heq2 | ⟨hin, _⟩
  · exact hne (by rw [← heq, heq2])
  · exact h (List.mem_map.2 ⟨p, hin, heq⟩)

/-! ### Claim theorems -/

/-- C1: After every `RecordTask` call, in any store state reachable from the
empty store by any trace of `RecordTask` calls (any salted token hash, any
users, display names, timestamps and texts), the total number of allocated
slots is at most the global capacity `1000` and every user owns at most the
per-user capacity `50`.  `RecordTask` is a total function, so it accepts
every input and never fails. -/
theorem c1_capacity_invariants (th : List Char → Nat) (trace : List RecordCall) :
    (runTrace th trace).slots.length ≤ MaxGlobalSlots
    ∧ ∀ u : Int, (lookupIdx (runTrace th trace).userSlotIdx u).length
        ≤ MaxUserSlots := by
  have hWF := runTrace_WFs th trace
  exact ⟨wfs_globalCap hWF, fun u => wfs_lookup_len hWF u⟩

/-- C2: `RecordTask` preserves index consistency.  From any well-formed
state whose LRU order is consistent with the slot timestamps and whose
clock `now` is not behind any stored timestamp, after the call: membership
lists of distinct users are disjoint; every listed index is an in-bounds
slot owned by exactly that user, with no duplicates; every allocated index
is listed under its owner; no user entry with an empty list remains; the
global LRU list holds each allocated index exactly once and only allocated
indices; and the LRU list stays ordered consistently with the timestamps,
its head being a globally least-recently-touched slot. -/
theorem c2_index_consistency (th : List Char → Nat) (m : ActiveTaskSlotManager)
    (uid : Int) (uname : String) (now : Int) (data : List Char)
    (hWF : WFs m) (hsort : SortedLRU m) (hts : BoundedTS m now) :
    (∀ u u' : Int, u ≠ u' →
      ∀ i ∈ lookupIdx (RecordTask th m uid uname now data).userSlotIdx u,
        i ∉ lookupIdx (RecordTask th m uid uname now data).userSlotIdx u')
    ∧ (∀ u : Int,
        ∀ i ∈ lookupIdx (RecordTask th m uid uname now data).userSlotIdx u,
          i < (RecordTask th m uid uname now data).slots.length
          ∧ ((RecordTask th m uid uname now data).slots.getD i
              defaultSlot).UserID = u)
    ∧ (∀ u : Int,
        (lookupIdx (RecordTask th m uid uname now data).userSlotIdx u).Nodup)
    ∧ (∀ i, i < (RecordTask th m uid uname now data).slots.length →
        i ∈ lookupIdx (RecordTask th m uid uname now data).userSlotIdx
          (((RecordTask th m uid uname now data).slots.getD i
            defaultSlot).UserID))
    ∧ (∀ p ∈ (RecordTask th m uid uname now data).userSlotIdx, p.2 ≠ [])
    ∧ (∀ i, i < (RecordTask th m uid uname now data).slots.length →
        (RecordTask th m uid uname now data).lruOrder.count i = 1)
    ∧ (∀ i ∈ (RecordTask th m uid uname now data).lruOrder,
        i < (RecordTask th m uid uname now data).slots.length)
    ∧ SortedLRU (RecordTask th m uid uname now data)
    ∧ (∀ (hd : Nat) (t : List Nat),
        (RecordTask th m uid uname now data).lruOrder = hd :: t →
        ∀ s ∈ (RecordTask th m uid uname now data).slots,
          ((RecordTask th m uid uname now data).slots.getD hd
            defaultSlot).UpdatedAt ≤ s.UpdatedAt) := by
  rw [RecordTask_eq_core]
  have hpres := recordTaskCore_preserves m uid uname now (simhash64 th data) hWF
  have hWF' := hpres.1
  have hsorted' := (hpres.2 hsort hts).1
  refine ⟨?_, ?_, ?_, ?_, ?_, ?_, ?_, hsorted', ?_⟩
  · intro u u' hne i hi
    exact wfs_lookup_disjoint hWF' hne i hi
  · intro u i hi
    exact wfs_lookup_owned hWF' u i hi
  · intro u
    exact wfs_lookup_nodup hWF' u
  · intro i hi
    exact wfs_complete hWF' i hi
  · intro p hp
    exact (wfs_entries hWF' p hp).2.2.1
  · intro i hi
    exact List.count_eq_one_of_mem (wfs_lruNodup hWF')
      (wfs_lruComplete hWF' i hi)
  · intro i hi
    exact wfs_lruLt hWF' i hi
  · intro hd t hlru s hs
    exact lru_head_min _ hWF' hsorted' hlru s hs

/-- C2 witness: the preservation theorem applied to a concrete call on the
empty store, whose hypotheses are decidable. -/
theorem c2_index_consistency_witness :
    (WFs emptyManager ∧ SortedLRU emptyManager ∧ BoundedTS emptyManager 3)
    ∧ (∀ u : Int,
        ∀ i ∈ lookupIdx (RecordTask thLen emptyManager 1 "u" 3 ['a']).userSlotIdx u,
          i < (RecordTask thLen emptyManager 1 "u" 3 ['a']).slots.length
          ∧ ((RecordTask thLen emptyManager 1 "u" 3 ['a']).slots.getD i
              defaultSlot).UserID = u)
    ∧ SortedLRU (RecordTask thLen emptyManager 1 "u" 3 ['a']) := by
  have hres := c2_index_consistency thLen emptyManager 1 "u" 3 ['a']
    (by decide) (by decide) (by decide)
  exact ⟨⟨by decide, by decide, by decide⟩, hres.2.1, hres.2.2.2.2.2.2.2.1⟩

/-- C3: For a user below the per-user cap, when the scan of that user's
membership list finds a slot whose fingerprint is within Hamming distance
`5` of the new text's fingerprint, the chosen slot is the first such slot
in membership order, and it is updated in place: fingerprint replaced (not
merged), timestamp set to `now`, display name overwritten, and the slot
moved to the most-recently-used end of the LRU order; the user index, the
user's slot count and the total store size are unchanged, and no other
slot changes. -/
theorem c3_match_in_place (th : List Char → Nat) (m : ActiveTaskSlotManager)
    (uid : Int) (uname : String) (now : Int) (data : List Char) (idx : Nat)
    (hWF : WFs m)
    (_hcap : (lookupIdx m.userSlotIdx uid).length < MaxUserSlots)
    (hfind : (lookupIdx m.userSlotIdx uid).find?
        (matchPred m (simhash64 th data)) = some idx) :
    (hamming64 (m.slots.getD idx defaultSlot).SimHash (simhash64 th data)
        ≤ SimHashThreshold)
    ∧ (∃ pre post, lookupIdx m.userSlotIdx uid = pre ++ idx :: post
        ∧ ∀ j ∈ pre, ¬ (hamming64 (m.slots.getD j defaultSlot).SimHash
            (simhash64 th data) ≤ SimHashThreshold))
    ∧ (RecordTask th m uid uname now data).userSlotIdx = m.userSlotIdx
    ∧ (RecordTask th m uid uname now data).slots.length = m.slots.length
    ∧ (lookupIdx (RecordTask th m uid uname now data).userSlotIdx uid).length
        = (lookupIdx m.userSlotIdx uid).length
    ∧ (RecordTask th m uid uname now data).slots.getD idx defaultSlot
        = ⟨(m.slots.getD idx defaultSlot).UserID, uname, now, simhash64 th data⟩
    ∧ (∀ j, j ≠ idx → (RecordTask th m uid uname now data).slots.getD j
        defaultSlot = m.slots.getD j defaultSlot)
    ∧ (RecordTask th m uid uname now data).lruOrder
        = m.lruOrder.erase idx ++ [idx] := by
  have hmem : idx ∈ lookupIdx m.userSlotIdx uid :=
    List.mem_of_find?_eq_some hfind
  have hio := wfs_lookup_owned hWF uid idx hmem
  have heq := recordTaskCore_match_eq m uid uname now (simhash64 th data) hfind
  rw [RecordTask_eq_core, heq]
  refine ⟨?_, ?_, rfl, by simp, rfl, ?_, ?_, rfl⟩
  · have hp := List.find?_some hfind
    simpa [matchPred] using hp
  · rcases List.find?_eq_some.1 hfind with ⟨hpb, as, bs, hsplit, hpre⟩
    refine ⟨as, bs, hsplit, fun j hj => ?_⟩
    have hq := hpre j hj
    simpa [matchPred] using hq
  · exact getD_set_self _ _ _ _ hio.1
  · intro j hj
    exact getD_set_ne _ _ _ (fun e => hj e.symm)

/-- C3 witness: the in-place-update theorem applied to a one-slot store and
a call with the same text, whose hypotheses are decided concretely. -/
theorem c3_match_in_place_witness :
    (WFs mOne
     ∧ (lookupIdx mOne.userSlotIdx 1).length < MaxUserSlots
     ∧ (lookupIdx mOne.userSlotIdx 1).find?
         (matchPred mOne (simhash64 thLen ['a'])) = some 0)
    ∧ ((RecordTask thLen mOne 1 "v" 9 ['a']).slots.length = mOne.slots.length
       ∧ (RecordTask thLen mOne 1 "v" 9 ['a']).slots.getD 0 defaultSlot
           = ⟨(mOne.slots.getD 0 defaultSlot).UserID, "v", 9, simhash64 thLen ['a']⟩
       ∧ (RecordTask thLen mOne 1 "v" 9 ['a']).lruOrder
           = mOne.lruOrder.erase 0 ++ [0]) := by
  have hres := c3_match_in_place thLen mOne 1 "v" 9 ['a'] 0
    (by decide) (by decide) (by decide)
  exact ⟨⟨by decide, by decide, by decide⟩,
    hres.2.2.2.1, hres.2.2.2.2.2.1, hres.2.2.2.2.2.2.2⟩

set_option maxRecDepth 8000 in
/-- C4 counterexample: the claim omits the condition that the global store
is below capacity.  In the reachable, well-formed store `fillMgr thLen 1000`
(1000 users holding one slot each, built by `fillTrace 1000` from the empty
store), a call by the fresh user `1001` — below the per-user cap, with no
owned slot within the similarity threshold — leaves the global slot count
at `1000` instead of increasing it by one: the globally least-recently-used
slot is reused. -/
theorem c4_counterexample :
    runTrace thLen (fillTrace 1000) = fillMgr thLen 1000
    ∧ WFs (fillMgr thLen 1000)
    ∧ (lookupIdx (fillMgr thLen 1000).userSlotIdx 1001).length < MaxUserSlots
    ∧ (lookupIdx (fillMgr thLen 1000).userSlotIdx 1001).find?
        (matchPred (fillMgr thLen 1000) (simhash64 thLen ['b'])) = none
    ∧ (RecordTask thLen (fillMgr thLen 1000) 1001 "u" 0 ['b']).slots.length
        = 1000
    ∧ ¬ ((RecordTask thLen (fillMgr thLen 1000) 1001 "u" 0 ['b']).slots.length
        = (fillMgr thLen 1000).slots.length + 1) := by
  have hlookup : lookupIdx (fillMgr thLen 1000).userSlotIdx 1001 = [] := by
    refine fillMgr_lookup_none thLen 1000 1001 (fun k hk he => ?_)
    omega
  have hfind : (lookupIdx (fillMgr thLen 1000).userSlotIdx 1001).find?
      (matchPred (fillMgr thLen 1000) (simhash64 thLen ['b'])) = none := by
    rw [hlookup]
    rfl
  have h50 : ¬ MaxUserSlots ≤ (lookupIdx (fillMgr thLen 1000).userSlotIdx
      1001).length := by
    rw [hlookup]
    decide
  have hlen : (fillMgr thLen 1000).slots.length = 1000 := fillMgr_length _ _
  have hlru0 : (fillMgr thLen 1000).lruOrder = List.range 1000 := rfl
  have hlrune : (fillMgr thLen 1000).lruOrder ≠ [] := by
    rw [hlru0]
    simp [List.range_eq_nil]
  have hglobal := recordTaskCore_global_eq (fillMgr thLen 1000) 1001 "u" 0
    (simhash64 thLen ['b']) hfind h50 ⟨by rw [hlen]; decide, hlrune⟩
  have hreslen : (RecordTask thLen (fillMgr thLen 1000) 1001 "u" 0
      ['b']).slots.length = 1000 := by
    rw [RecordTask_eq_core, hglobal, reuseSlot_slots_length, hlen]
  refine ⟨fillTrace_runs thLen 1000 (by decide),
    fillMgr_WFs thLen 1000 (by decide),
    by rw [hlookup]; decide, hfind, hreslen, ?_⟩
  rw [hreslen, hlen]
  decide

/-- C4 amended: for a user below the per-user cap whose fingerprint matches
none of their slots, **provided the global store is below the global
capacity**, `RecordTask` increases the user's slot count and the global
slot count by exactly one: a new slot holding the caller's data is appended
to the store, its index is registered at the end of the user's membership
list, and it is placed at the most-recent end of the LRU order; other
users' lists are unchanged.  (At the global cap the LRU slot is reused
instead and the counts stay unchanged — see the counterexample.) -/
theorem c4_alloc_below_caps (th : List Char → Nat) (m : ActiveTaskSlotManager)
    (uid : Int) (uname : String) (now : Int) (data : List Char)
    (hcap : (lookupIdx m.userSlotIdx uid).length < MaxUserSlots)
    (hglob : m.slots.length < MaxGlobalSlots)
    (hfind : (lookupIdx m.userSlotIdx uid).find?
        (matchPred m (simhash64 th data)) = none) :
    (RecordTask th m uid uname now data).slots.length = m.slots.length + 1
    ∧ (RecordTask th m uid uname now data).slots
        = m.slots ++ [⟨uid, uname, now, simhash64 th data⟩]
    ∧ lookupIdx (RecordTask th m uid uname now data).userSlotIdx uid
        = lookupIdx m.userSlotIdx uid ++ [m.slots.length]
    ∧ (lookupIdx (RecordTask th m uid uname now data).userSlotIdx uid).length
        = (lookupIdx m.userSlotIdx uid).length + 1
    ∧ (∀ u : Int, u ≠ uid →
        lookupIdx (RecordTask th m uid uname now data).userSlotIdx u
          = lookupIdx m.userSlotIdx u)
    ∧ (RecordTask th m uid uname now data).lruOrder
        = m.lruOrder ++ [m.slots.length] := by
  have h50 : ¬ MaxUserSlots ≤ (lookupIdx m.userSlotIdx uid).length :=
    not_le.2 hcap
  have hg : ¬ (MaxGlobalSlots ≤ m.slots.length ∧ m.lruOrder ≠ []) :=
    fun hc => absurd hc.1 (not_le.2 hglob)
  rw [RecordTask_eq_core,
    recordTaskCore_alloc_eq m uid uname now (simhash64 th data) hfind h50 hg]
  refine ⟨by simp, rfl, ?_, ?_, ?_, rfl⟩
  · exact lookupIdx_setIdx_self _ _ _
  · rw [lookupIdx_setIdx_self, List.length_append, List.length_singleton]
  · intro u hu
    exact lookupIdx_setIdx_ne _ _ hu

/-- C4 witness: the amended allocation theorem applied to the empty store,
whose hypotheses are decided concretely. -/
theorem c4_alloc_below_caps_witness :
    ((lookupIdx emptyManager.userSlotIdx 1).length < MaxUserSlots
     ∧ emptyManager.slots.length < MaxGlobalSlots
     ∧ (lookupIdx emptyManager.userSlotIdx 1).find?
         (matchPred emptyManager (simhash64 thLen ['a'])) = none)
    ∧ ((RecordTask thLen emptyManager 1 "u" 5 ['a']).slots.length
        = emptyManager.slots.length + 1
       ∧ lookupIdx (RecordTask thLen emptyManager 1 "u" 5 ['a']).userSlotIdx 1
           = lookupIdx emptyManager.userSlotIdx 1 ++ [emptyManager.slots.length]
       ∧ (RecordTask thLen emptyManager 1 "u" 5 ['a']).lruOrder
           = emptyManager.lruOrder ++ [emptyManager.slots.length]) := by
  have hres := c4_alloc_below_caps thLen emptyManager 1 "u" 5 ['a']
    (by decide) (by decide) (by decide)
  exact ⟨⟨by decide, by decide, by decide⟩,
    hres.1, hres.2.2.1, hres.2.2.2.2.2⟩

/-- C5: For a user holding exactly the per-user cap of `50` slots, all of
whose fingerprints are farther than distance `5` from the new fingerprint,
`RecordTask` reuses that user's least-recently-touched slot, selected by
minimum timestamp over the user's membership list: its fields are
overwritten with the caller's data and it moves to the most-recently-used
end of the LRU order, while the user index (hence the user's slot count)
and the global slot count are unchanged. -/
theorem c5_usercap_reuses_oldest (th : List Char → Nat)
    (m : ActiveTaskSlotManager) (uid : Int) (uname : String) (now : Int)
    (data : List Char) (hWF : WFs m)
    (hcap : (lookupIdx m.userSlotIdx uid).length = MaxUserSlots)
    (hfind : (lookupIdx m.userSlotIdx uid).find?
        (matchPred m (simhash64 th data)) = none) :
    ∃ oldest, findOldestUserSlot m uid = some oldest
      ∧ oldest ∈ lookupIdx m.userSlotIdx uid
      ∧ (∀ j ∈ lookupIdx m.userSlotIdx uid,
          (m.slots.getD oldest defaultSlot).UpdatedAt
            ≤ (m.slots.getD j defaultSlot).UpdatedAt)
      ∧ (RecordTask th m uid uname now data).userSlotIdx = m.userSlotIdx
      ∧ (RecordTask th m uid uname now data).slots.length = m.slots.length
      ∧ (lookupIdx (RecordTask th m uid uname now data).userSlotIdx uid).length
          = MaxUserSlots
      ∧ (RecordTask th m uid uname now data).slots.getD oldest defaultSlot
          = ⟨uid, uname, now, simhash64 th data⟩
      ∧ (∀ j, j ≠ oldest → (RecordTask th m uid uname now data).slots.getD j
          defaultSlot = m.slots.getD j defaultSlot)
      ∧ (RecordTask th m uid uname now data).lruOrder
          = m.lruOrder.erase oldest ++ [oldest] := by
  have hne : lookupIdx m.userSlotIdx uid ≠ [] := by
    intro he
    rw [he] at hcap
    simp [MaxUserSlots] at hcap
  rcases findOldestUserSlot_spec m uid hne with ⟨oldest, hold, holdm, holdmin⟩
  have hio := wfs_lookup_owned hWF uid oldest holdm
  have h50 : MaxUserSlots ≤ (lookupIdx m.userSlotIdx uid).length := by
    rw [hcap]
  have heq := recordTaskCore_usercap_eq m uid uname now (simhash64 th data)
    hfind h50 hold
  refine ⟨oldest, hold, holdm, holdmin, ?_⟩
  rw [RecordTask_eq_core, heq, reuseSlot_eq_same m oldest uid uname now
    (simhash64 th data) hio.2]
  refine ⟨rfl, by simp, by rw [hcap], ?_, ?_, rfl⟩
  · exact getD_set_self _ _ _ _ hio.1
  · intro j hj
    exact getD_set_ne _ _ _ (fun e => hj e.symm)

/-- C5 witness: the per-user-cap reuse theorem applied to a concrete store
in which user `1` holds exactly `50` pairwise-distant slots, with slot `7`
strictly oldest; the hypotheses are decided concretely. -/
theorem c5_usercap_reuses_oldest_witness :
    (WFs mFifty
     ∧ (lookupIdx mFifty.userSlotIdx 1).length = MaxUserSlots
     ∧ (lookupIdx mFifty.userSlotIdx 1).find?
         (matchPred mFifty (simhash64 thLen (List.replicate 51 'a'))) = none)
    ∧ (∃ oldest, findOldestUserSlot mFifty 1 = some oldest
        ∧ oldest ∈ lookupIdx mFifty.userSlotIdx 1
        ∧ (∀ j ∈ lookupIdx mFifty.userSlotIdx 1,
            (mFifty.slots.getD oldest defaultSlot).UpdatedAt
              ≤ (mFifty.slots.getD j defaultSlot).UpdatedAt)
        ∧ (RecordTask thLen mFifty 1 "v" 9
            (List.replicate 51 'a')).userSlotIdx = mFifty.userSlotIdx
        ∧ (RecordTask thLen mFifty 1 "v" 9
            (List.replicate 51 'a')).slots.length = mFifty.slots.length
        ∧ (lookupIdx (RecordTask thLen mFifty 1 "v" 9
            (List.replicate 51 'a')).userSlotIdx 1).length = MaxUserSlots
        ∧ (RecordTask thLen mFifty 1 "v" 9
            (List.replicate 51 'a')).slots.getD oldest defaultSlot
            = ⟨1, "v", 9, simhash64 thLen (List.replicate 51 'a')⟩
        ∧ (∀ j, j ≠ oldest → (RecordTask thLen mFifty 1 "v" 9
            (List.replicate 51 'a')).slots.getD j defaultSlot
            = mFifty.slots.getD j defaultSlot)
        ∧ (RecordTask thLen mFifty 1 "v" 9 (List.replicate 51 'a')).lruOrder
            = mFifty.lruOrder.erase oldest ++ [oldest]) := by
  exact ⟨⟨by decide, by decide, by decide⟩,
    c5_usercap_reuses_oldest thLen mFifty 1 "v" 9 (List.replicate 51 'a')
      (by decide) (by decide) (by decide)⟩

theorem reuseSlot_slots (m : ActiveTaskSlotManager) (idx : Nat) (uid : Int)
    (uname : String) (now : Int) (hash : Nat) :
    (reuseSlot m idx uid uname now hash).slots
      = m.slots.set idx ⟨uid, uname, now, hash⟩ := by
  simp [reuseSlot]

theorem reuseSlot_lru (m : ActiveTaskSlotManager) (idx : Nat) (uid : Int)
    (uname : String) (now : Int) (hash : Nat) :
    (reuseSlot m idx uid uname now hash).lruOrder
      = m.lruOrder.erase idx ++ [idx] := by
  simp [reuseSlot, moveToLRUEnd]

/-- C6: When the store holds exactly `1000` slots and a user below the
per-user cap records a task matching none of their own slots, the head of
the LRU order — a globally least-recently-touched slot, irrespective of
its former owner — is reassigned to the caller: its fields are overwritten
and it moves to the most-recently-used end.  If the former owner differs
from the caller, the former owner's membership entry for the slot is
removed (the list destroyed when it becomes empty, dropping the user from
the index), the caller's list gains the index, so the former owner's count
drops by one and the caller's count grows by one, while the global slot
count remains `1000`.  If the caller already owned the slot, the user
index is unchanged. -/
theorem c6_globalcap_reassigns_lru (th : List Char → Nat)
    (m : ActiveTaskSlotManager) (uid : Int) (uname : String) (now : Int)
    (data : List Char) (hd : Nat) (t : List Nat)
    (hWF : WFs m) (hsort : SortedLRU m)
    (hn : m.slots.length = MaxGlobalSlots)
    (hcap : (lookupIdx m.userSlotIdx uid).length < MaxUserSlots)
    (hfind : (lookupIdx m.userSlotIdx uid).find?
        (matchPred m (simhash64 th data)) = none)
    (hlru : m.lruOrder = hd :: t) :
    (∀ s ∈ m.slots, (m.slots.getD hd defaultSlot).UpdatedAt ≤ s.UpdatedAt)
    ∧ (RecordTask th m uid uname now data).slots.length = MaxGlobalSlots
    ∧ (RecordTask th m uid uname now data).slots.getD hd defaultSlot
        = ⟨uid, uname, now, simhash64 th data⟩
    ∧ (∀ j, j ≠ hd → (RecordTask th m uid uname now data).slots.getD j
        defaultSlot = m.slots.getD j defaultSlot)
    ∧ (RecordTask th m uid uname now data).lruOrder
        = m.lruOrder.erase hd ++ [hd]
    ∧ ((m.slots.getD hd defaultSlot).UserID ≠ uid →
        lookupIdx (RecordTask th m uid uname now data).userSlotIdx
            (m.slots.getD hd defaultSlot).UserID
          = (lookupIdx m.userSlotIdx
              (m.slots.getD hd defaultSlot).UserID).erase hd
        ∧ (lookupIdx (RecordTask th m uid uname now data).userSlotIdx
            (m.slots.getD hd defaultSlot).UserID).length + 1
          = (lookupIdx m.userSlotIdx
              (m.slots.getD hd defaultSlot).UserID).length
        ∧ ((lookupIdx m.userSlotIdx
              (m.slots.getD hd defaultSlot).UserID).length = 1 →
            (m.slots.getD hd defaultSlot).UserID
              ∉ (RecordTask th m uid uname now data).userSlotIdx.map Prod.fst)
        ∧ lookupIdx (RecordTask th m uid uname now data).userSlotIdx uid
          = lookupIdx m.userSlotIdx uid ++ [hd]
        ∧ (lookupIdx (RecordTask th m uid uname now data).userSlotIdx
            uid).length = (lookupIdx m.userSlotIdx uid).length + 1)
    ∧ ((m.slots.getD hd defaultSlot).UserID = uid →
        (RecordTask th m uid uname now data).userSlotIdx = m.userSlotIdx) := by
  have hhd_mem : hd ∈ m.lruOrder := by
    rw [hlru]
    exact List.mem_cons_self hd t
  have hhd : hd < m.slots.length := wfs_lruLt hWF hd hhd_mem
  have h50 : ¬ MaxUserSlots ≤ (lookupIdx m.userSlotIdx uid).length :=
    not_le.2 hcap
  have hlrune : m.lruOrder ≠ [] := by
    rw [hlru]
    exact List.cons_ne_nil hd t
  have hheadD : m.lruOrder.headD 0 = hd := by
    rw [hlru]
    rfl
  have heq0 := recordTaskCore_global_eq m uid uname now (simhash64 th data)
    hfind h50 ⟨le_of_eq hn.symm, hlrune⟩
  rw [hheadD] at heq0
  have hmemold : hd ∈ lookupIdx m.userSlotIdx
      (m.slots.getD hd defaultSlot).UserID := wfs_complete hWF hd hhd
  refine ⟨lru_head_min m hWF hsort hlru, ?_, ?_, ?_, ?_, ?_, ?_⟩
  · rw [RecordTask_eq_core, heq0, reuseSlot_slots]
    rw [List.length_set]
    exact hn
  · rw [RecordTask_eq_core, heq0, reuseSlot_slots]
    exact getD_set_self _ _ _ _ hhd
  · intro j hj
    rw [RecordTask_eq_core, heq0, reuseSlot_slots]
    exact getD_set_ne _ _ _ (fun e => hj e.symm)
  · rw [RecordTask_eq_core, heq0, reuseSlot_lru]
  · intro hdiff
    rw [RecordTask_eq_core, heq0,
      reuseSlot_eq_diff m hd uid uname now (simhash64 th data) hdiff]
    have hremne : uid ≠ (m.slots.getD hd defaultSlot).UserID :=
      fun e => hdiff e.symm
    have hsub1 : lookupIdx
        (setIdx (removeFromUserSlotIdx m.userSlotIdx
            (m.slots.getD hd defaultSlot).UserID hd) uid
          (lookupIdx (removeFromUserSlotIdx m.userSlotIdx
            (m.slots.getD hd defaultSlot).UserID hd) uid ++ [hd]))
        (m.slots.getD hd defaultSlot).UserID
        = (lookupIdx m.userSlotIdx (m.slots.getD hd defaultSlot).UserID).erase
            hd := by
      rw [lookupIdx_setIdx_ne _ _ hdiff, lookupIdx_remove_self]
    have hsub4 : lookupIdx
        (setIdx (removeFromUserSlotIdx m.userSlotIdx
            (m.slots.getD hd defaultSlot).UserID hd) uid
          (lookupIdx (removeFromUserSlotIdx m.userSlotIdx
            (m.slots.getD hd defaultSlot).UserID hd) uid ++ [hd])) uid
        = lookupIdx m.userSlotIdx uid ++ [hd] := by
      rw [lookupIdx_setIdx_self, lookupIdx_remove_ne _ _ hremne]
    refine ⟨hsub1, ?_, ?_, hsub4, ?_⟩
    · rw [hsub1, List.length_erase_of_mem hmemold]
      have hpos : 0 < (lookupIdx m.userSlotIdx
          (m.slots.getD hd defaultSlot).UserID).length :=
        List.length_pos_of_mem hmemold
      omega
    · intro hlen1
      have herase : (lookupIdx m.userSlotIdx
          (m.slots.getD hd defaultSlot).UserID).erase hd = [] := by
        have hle := List.length_erase_of_mem hmemold
        rw [hlen1] at hle
        exact List.length_eq_zero.1 hle
      have hL1 : removeFromUserSlotIdx m.userSlotIdx
          (m.slots.getD hd defaultSlot).UserID hd
          = eraseKey m.userSlotIdx (m.slots.getD hd defaultSlot).UserID := by
        unfold removeFromUserSlotIdx
        rw [if_pos herase]
      rw [hL1]
      refine notMem_keys_setIdx _ _ _ _ ?_ hdiff
      exact notMem_keys_eraseKey _ _
    · rw [hsub4, List.length_append, List.length_singleton]
  · intro hsame
    rw [RecordTask_eq_core, heq0,
      reuseSlot_eq_same m hd uid uname now (simhash64 th data) hsame]

set_option maxRecDepth 8000 in
/-- C6 witness: the global-cap reuse theorem applied to the reachable full
store of `1000` one-slot users, called by the fresh user `1001`; all
hypotheses are discharged concretely. -/
theorem c6_globalcap_reassigns_lru_witness :
    (WFs (fillMgr thLen 1000)
     ∧ SortedLRU (fillMgr thLen 1000)
     ∧ (fillMgr thLen 1000).slots.length = MaxGlobalSlots
     ∧ (lookupIdx (fillMgr thLen 1000).userSlotIdx 1001).length < MaxUserSlots
     ∧ (lookupIdx (fillMgr thLen 1000).userSlotIdx 1001).find?
         (matchPred (fillMgr thLen 1000) (simhash64 thLen ['b'])) = none
     ∧ (fillMgr thLen 1000).lruOrder = 0 :: (List.range 999).map Nat.succ)
    ∧ ((∀ s ∈ (fillMgr thLen 1000).slots,
          ((fillMgr thLen 1000).slots.getD 0 defaultSlot).UpdatedAt
            ≤ s.UpdatedAt)
       ∧ (RecordTask thLen (fillMgr thLen 1000) 1001 "u" 0 ['b']).slots.length
           = MaxGlobalSlots
       ∧ (RecordTask thLen (fillMgr thLen 1000) 1001 "u" 0
           ['b']).slots.getD 0 defaultSlot
           = ⟨1001, "u", 0, simhash64 thLen ['b']⟩
       ∧ (((fillMgr thLen 1000).slots.getD 0 defaultSlot).UserID ≠ 1001 →
           lookupIdx (RecordTask thLen (fillMgr thLen 1000) 1001 "u" 0
               ['b']).userSlotIdx
               ((fillMgr thLen 1000).slots.getD 0 defaultSlot).UserID
             = (lookupIdx (fillMgr thLen 1000).userSlotIdx
                 ((fillMgr thLen 1000).slots.getD 0 defaultSlot).UserID).erase 0
           ∧ (lookupIdx (RecordTask thLen (fillMgr thLen 1000) 1001 "u" 0
               ['b']).userSlotIdx
               ((fillMgr thLen 1000).slots.getD 0 defaultSlot).UserID).length + 1
             = (lookupIdx (fillMgr thLen 1000).userSlotIdx
                 ((fillMgr thLen 1000).slots.getD 0 defaultSlot).UserID).length
           ∧ ((lookupIdx (fillMgr thLen 1000).userSlotIdx
                 ((fillMgr thLen 1000).slots.getD 0 defaultSlot).UserID).length
                 = 1 →
               ((fillMgr thLen 1000).slots.getD 0 defaultSlot).UserID
                 ∉ (RecordTask thLen (fillMgr thLen 1000) 1001 "u" 0
                     ['b']).userSlotIdx.map Prod.fst)
           ∧ lookupIdx (RecordTask thLen (fillMgr thLen 1000) 1001 "u" 0
               ['b']).userSlotIdx 1001
             = lookupIdx (fillMgr thLen 1000).userSlotIdx 1001 ++ [0]
           ∧ (lookupIdx (RecordTask thLen (fillMgr thLen 1000) 1001 "u" 0
               ['b']).userSlotIdx 1001).length
             = (lookupIdx (fillMgr thLen 1000).userSlotIdx 1001).length + 1)) := by
  have hlookup : lookupIdx (fillMgr thLen 1000).userSlotIdx 1001 = [] := by
    refine fillMgr_lookup_none thLen 1000 1001 (fun k hk he => ?_)
    omega
  have hWFf : WFs (fillMgr thLen 1000) := fillMgr_WFs thLen 1000 (by decide)
  have hsortf : SortedLRU (fillMgr thLen 1000) := fillMgr_sorted thLen 1000
  have hnf : (fillMgr thLen 1000).slots.length = MaxGlobalSlots :=
    fillMgr_length thLen 1000
  have hcapf : (lookupIdx (fillMgr thLen 1000).userSlotIdx 1001).length
      < MaxUserSlots := by
    rw [hlookup]
    decide
  have hfindf : (lookupIdx (fillMgr thLen 1000).userSlotIdx 1001).find?
      (matchPred (fillMgr thLen 1000) (simhash64 thLen ['b'])) = none := by
    rw [hlookup]
    rfl
  have hlruf : (fillMgr thLen 1000).lruOrder
      = 0 :: (List.range 999).map Nat.succ := by
    show List.range 1000 = 0 :: (List.range 999).map Nat.succ
    exact List.range_succ_eq_map 999
  have hres := c6_globalcap_reassigns_lru thLen (fillMgr thLen 1000) 1001 "u" 0
    ['b'] 0 ((List.range 999).map Nat.succ) hWFf hsortf hnf hcapf hfindf hlruf
  exact ⟨⟨hWFf, hsortf, hnf, hcapf, hfindf, hlruf⟩,
    hres.1, hres.2.1, hres.2.2.1, hres.2.2.2.2.2.1⟩

/-- C7: `simhash64` returns the all-zero value when the text has no
whitespace-delimited tokens; otherwise output bit `i` is `1` exactly when
the signed vote for position `i` — `+1` per token whose salted hash has
bit `i` set, `-1` otherwise, repeated tokens voting repeatedly (the
definition of `vote`) — is `≥ 0`, and only bits below `64` are ever set.
`hamming64 a b`, the population count of `a XXOR b` over the 64 positions,
is always at most `64`, and the distance of any fingerprint to itself is
`0`. -/
theorem c7_fingerprint_and_distance (th : List Char → Nat) (data : List Char)
    (a b : Nat) (i : Nat) :
    (fields data = [] → simhash64 th data = 0)
    ∧ (fields data ≠ [] →
        (((simhash64 th data).testBit i = true)
          ↔ (i < 64 ∧ 0 ≤ vote th (fields data) i)))
    ∧ hamming64 a b ≤ 64
    ∧ hamming64 (simhash64 th data) (simhash64 th data) = 0 :=
  ⟨simhash64_empty th data, fun hne => simhash64_testBit th data hne i,
   hamming64_le_64 a b, hamming64_self _⟩

/-- C7 witness: the fingerprint theorem instantiated at a concrete hash,
text, values and bit position. -/
theorem c7_fingerprint_and_distance_witness :
    (fields ['a'] = [] → simhash64 thLen ['a'] = 0)
    ∧ (fields ['a'] ≠ [] →
        (((simhash64 thLen ['a']).testBit 3 = true)
          ↔ (3 < 64 ∧ 0 ≤ vote thLen (fields ['a']) 3)))
    ∧ hamming64 6 12 ≤ 64
    ∧ hamming64 (simhash64 thLen ['a']) (simhash64 thLen ['a']) = 0 :=
  c7_fingerprint_and_distance thLen ['a'] 6 12 3

/-- C8: `GetActiveTaskRank` (with a positive window) tallies, per user, the
slots whose timestamp is at least `now - windowSeconds` — each slot counted
once, independently of how many touches produced its final timestamp —
records the display name of the first counted slot of each user, lists
exactly the users owning at least one such slot, each once, and returns the
rows sorted by count descending; `GetHighActiveUsers` is exactly that
ranking filtered to rows with count at least the threshold, in the same
order. -/
theorem c8_rank_and_filter (m : ActiveTaskSlotManager)
    (now windowSeconds : Int) (threshold : Nat) (hw : 0 < windowSeconds) :
    ((GetActiveTaskRank m now windowSeconds).map (fun e => e.UserID)).Nodup
    ∧ (∀ e ∈ GetActiveTaskRank m now windowSeconds,
        e.ActiveSlots = activeSlotCount m.slots (now - windowSeconds) e.UserID)
    ∧ (∀ u : Int, (∃ e ∈ GetActiveTaskRank m now windowSeconds, e.UserID = u)
        ↔ 0 < activeSlotCount m.slots (now - windowSeconds) u)
    ∧ (∀ e ∈ GetActiveTaskRank m now windowSeconds,
        ∃ s, firstActiveSlot m.slots (now - windowSeconds) e.UserID = some s
          ∧ e.Username = s.Username)
    ∧ (GetActiveTaskRank m now windowSeconds).Pairwise
        (fun a b => b.ActiveSlots ≤ a.ActiveSlots)
    ∧ GetHighActiveUsers m now windowSeconds threshold
        = (GetActiveTaskRank m now windowSeconds).filter
            (fun e => threshold ≤ e.ActiveSlots) := by
  rcases GetActiveTaskRank_spec m now windowSeconds hw with ⟨⟨hA, hB, hC, hD⟩, hS⟩
  exact ⟨hA, hB, hC, hD, hS, rfl⟩

/-- C8 witness: the ranking theorem applied to a concrete one-slot store
with a positive window. -/
theorem c8_rank_and_filter_witness :
    (0 : Int) < 30
    ∧ (((GetActiveTaskRank mOne 100 30).map (fun e => e.UserID)).Nodup
       ∧ (∀ e ∈ GetActiveTaskRank mOne 100 30,
            e.ActiveSlots = activeSlotCount mOne.slots (100 - 30) e.UserID)
       ∧ (GetActiveTaskRank mOne 100 30).Pairwise
            (fun a b => b.ActiveSlots ≤ a.ActiveSlots)
       ∧ GetHighActiveUsers mOne 100 30 1
           = (GetActiveTaskRank mOne 100 30).filter
               (fun e => 1 ≤ e.ActiveSlots)) := by
  have hres := c8_rank_and_filter mOne 100 30 1 (by decide)
  exact ⟨by decide, hres.1, hres.2.1, hres.2.2.2.2.1, hres.2.2.2.2.2⟩

/-- C9 counterexample: the claim is false on the code.  `GetStats` reports
as `active_users` the size of the whole per-user index — the number of
users holding any slot — not the number of users with a slot touched
within the window.  In the one-slot store `mOne` (reached by one
`RecordTask` call at time `0`), queried at `now = 1000`, no slot lies in
the window (`active_slots = 0`) and no user owns a window-active slot, yet
`active_users = 1`. -/
theorem c9_counterexample :
    RecordTask thLen emptyManager 1 "u" 0 ['a'] = mOne
    ∧ (GetStats mOne 1000).active_slots = 0
    ∧ ((mOne.slots.filter
        (fun s => (1000 : Int) - ActiveWindowSeconds ≤ s.UpdatedAt)).map
          (fun s => s.UserID)).dedup.length = 0
    ∧ (GetStats mOne 1000).active_users = 1
    ∧ ¬ ((GetStats mOne 1000).active_users
        = ((mOne.slots.filter
            (fun s => (1000 : Int) - ActiveWindowSeconds ≤ s.UpdatedAt)).map
              (fun s => s.UserID)).dedup.length) := by
  refine ⟨by decide, by decide, by decide, by decide, by decide⟩

/-- C9 amended: `GetStats` returns, from one snapshot, the total number of
allocated slots, the number of slots touched within the fixed default
window of `30` seconds, the configured global and per-user capacities, the
window length, and — as `active_users` — the number of distinct users
currently owning at least one slot, regardless of the window. -/
theorem c9_stats (m : ActiveTaskSlotManager) (now : Int) (hWF : WFs m) :
    (GetStats m now).total_slots = m.slots.length
    ∧ (GetStats m now).active_slots
        = (m.slots.filter (fun s => now - ActiveWindowSeconds ≤ s.UpdatedAt)).length
    ∧ (GetStats m now).max_global_slots = MaxGlobalSlots
    ∧ (GetStats m now).max_user_slots = MaxUserSlots
    ∧ (GetStats m now).window_seconds = ActiveWindowSeconds
    ∧ (GetStats m now).active_users
        = ((m.slots.map (fun s => s.UserID)).dedup).length :=
  ⟨rfl, rfl, rfl, rfl, rfl, wfs_activeUsers m hWF⟩

/-- C9 witness: the amended statistics theorem applied to the one-slot
store. -/
theorem c9_stats_witness :
    WFs mOne
    ∧ ((GetStats mOne 5).total_slots = mOne.slots.length
       ∧ (GetStats mOne 5).active_slots
           = (mOne.slots.filter
               (fun s => (5 : Int) - ActiveWindowSeconds ≤ s.UpdatedAt)).length
       ∧ (GetStats mOne 5).active_users
           = ((mOne.slots.map (fun s => s.UserID)).dedup).length) := by
  have hres := c9_stats mOne 5 (by decide)
  exact ⟨by decide, hres.1, hres.2.1, hres.2.2.2.2.2⟩

/-- C10: within one process lifetime (one fixed salted token hash `th`),
the fingerprint depends only on the multiset of whitespace-delimited
tokens: any two texts whose token lists are permutations of each other —
for example the same tokens in another order, or separated by different or
additional whitespace — receive the identical 64-bit fingerprint, hence
distance `0` from each other. -/
theorem c10_fingerprint_token_multiset (th : List Char → Nat)
    (x y : List Char) (hp : (fields x).Perm (fields y)) :
    simhash64 th x = simhash64 th y
    ∧ hamming64 (simhash64 th x) (simhash64 th y) = 0 := by
  have he := simhash64_perm th x y hp
  refine ⟨he, ?_⟩
  rw [he]
  exact hamming64_self _

/-- C10 witness: the multiset-dependence theorem applied to two concrete
texts with the same tokens in opposite order and different whitespace. -/
theorem c10_fingerprint_token_multiset_witness :
    (fields ['a', ' ', 'b']).Perm (fields ['b', ' ', ' ', 'a'])
    ∧ (simhash64 thLen ['a', ' ', 'b'] = simhash64 thLen ['b', ' ', ' ', 'a']
       ∧ hamming64 (simhash64 thLen ['a', ' ', 'b'])
           (simhash64 thLen ['b', ' ', ' ', 'a']) = 0) :=
  ⟨by decide, c10_fingerprint_token_multiset thLen ['a', ' ', 'b']
    ['b', ' ', ' ', 'a'] (by decide)⟩
